import Mathlib

set_option maxRecDepth 100000

/-!
# A verification development for the `letter-boxed-solver` crate

This file gives a shallow embedding of `letter-boxed-solver/src/lib.rs` and
proves properties of the board model (`load_board`), the solution validator
(`validate`), and the breadth-first chain-search engine (`solve`,
`solve_with_builtin_list`).

Modelling conventions:
* a Rust `&str` is modelled as its list of characters (`Word`);
* `str::len` is UTF-8 byte length, modelled by `utf8Len`, and `str::trim`
  removes the full Unicode `White_Space` set, modelled by
  `rustIsWhitespace`;
* `HashSet` / `BTreeSet` are modelled as `Finset` (only set contents matter:
  the sets are used for membership, extension, cardinality and equality);
* `BTreeMap` iteration order (ascending keys) is modelled explicitly by
  sorting (`graphKeys`, `edgesFrom`);
* the `VecDeque` work loop is modelled by a structurally recursive function
  `solveLoop` driven by a fuel argument; `loopFuel` computes an upper bound
  on the number of iterations, and `solveLoop_fuel_eq` proves that any fuel
  at least `loopFuel` yields the same (fuel-independent) result, so `solve`
  is the exact total function computed by the Rust loop;
* Rust panics (out-of-range indexing and `unwrap` of `None` in the
  prior-words handling, and the failing word lookup in
  `solve_with_builtin_list`) are modelled by `Option`: `none` means the call
  aborts instead of returning.
-/

/-- A word, modelled as its list of characters.  Rust `str::len` counts
UTF-8 bytes and is modelled by `utf8Len`, and Rust `str::trim` removes the
full Unicode `White_Space` set, modelled by `rustIsWhitespace`. -/
abbrev Word := List Char

/-- The Unicode `White_Space` property tested by Rust `char::is_whitespace`
(code points U+0009-U+000D, U+0020, U+0085, U+00A0, U+1680, U+2000-U+200A,
U+2028, U+2029, U+202F, U+205F and U+3000). -/
def rustIsWhitespace (c : Char) : Bool :=
  decide (c.toNat ∈ [0x09, 0x0A, 0x0B, 0x0C, 0x0D, 0x20, 0x85, 0xA0, 0x1680,
    0x2000, 0x2001, 0x2002, 0x2003, 0x2004, 0x2005, 0x2006, 0x2007, 0x2008,
    0x2009, 0x200A, 0x2028, 0x2029, 0x202F, 0x205F, 0x3000])

/-- Rust `str::trim`, as used in the graph-building stage of `solve` and in
the loading of the built-in word list: drop leading and trailing Unicode
whitespace. -/
def trim (w : Word) : Word :=
  ((w.dropWhile rustIsWhitespace).reverse.dropWhile rustIsWhitespace).reverse

/-- Rust `str::len` of a word: its length in UTF-8 bytes (not characters;
a multi-byte character such as U+221A counts as three). -/
def utf8Len (w : Word) : Nat := (w.map Char.utf8Size).sum

/-- The board model (Rust `struct LetterBoxed`): the forbidden-adjacency
pairs and the set of letters on the board. -/
structure LetterBoxed where
  nonadjacent : Finset (Char × Char)
  letters : Finset Char
deriving DecidableEq

/-- `LetterBoxed::load_board`: for every side, every ordered pair of
characters of that side (a character paired with itself included) is
forbidden; the letter set is the union of all side characters. -/
def load_board (sides : List Word) : LetterBoxed where
  nonadjacent :=
    (sides.flatMap fun side => side.flatMap fun c => side.map fun cc => (c, cc)).toFinset
  letters := (sides.flatMap id).toFinset

/-- The word-internal adjacency loop shared by `LetterBoxed::validate` and
the graph-building stage of `LetterBoxed::solve`: no two consecutive
characters of the word may form a forbidden pair. -/
def pairsOk (b : LetterBoxed) : Word → Bool
  | c :: next :: rest =>
    !(decide ((c, next) ∈ b.nonadjacent)) && pairsOk b (next :: rest)
  | _ => true

/-- The chaining loop of `LetterBoxed::validate`: the last character of each
word must equal the first character of the next (`chars().last()` versus
`chars().next()`, compared as `Option<char>`). -/
def chainOk : List Word → Bool
  | w1 :: w2 :: rest => (w1.getLast? == w2.head?) && chainOk (w2 :: rest)
  | _ => true

/-- `LetterBoxed::validate`: a solution is valid when consecutive words
chain end-letter-to-start-letter and no word contains a forbidden
consecutive pair. -/
def validate (b : LetterBoxed) (solution : List Word) : Bool :=
  chainOk solution && solution.all (pairsOk b)

/-- The word filter of the graph-building stage of `solve` (applied to the
trimmed word): at least three UTF-8 bytes (`w.len() < 3` skips), every
character on the board, and no forbidden consecutive pair. -/
def eligible (b : LetterBoxed) (w : Word) : Bool :=
  decide (3 ≤ utf8Len w) && w.all (fun c => decide (c ∈ b.letters)) && pairsOk b w

/-- `words[i]`, total: the `i`-th word, or `[]` out of range (all uses are
in range whenever the Rust code does not panic). -/
def wordAt (words : List Word) (i : Nat) : Word := words.getD i []

/-- Indices of the words that pass the eligibility filter, in index order
(the iteration order of `words.iter().enumerate()`). -/
def eligIdx (b : LetterBoxed) (words : List Word) : List Nat :=
  (List.range words.length).filter fun i => eligible b (trim (wordAt words i))

/-- First character of a word (`chars().next().unwrap()`; the default is
never used on the nonempty words it is applied to). -/
def firstCharD (w : Word) : Char := w.headD 'A'

/-- Last character of a word (`chars().last().unwrap()`; the default is
never used on the nonempty words it is applied to). -/
def lastCharD (w : Word) : Char := w.getLastD 'A'

/-- Insertion step of the insertion sort presenting the graph keys in
ascending order. -/
def insChar (c : Char) : List Char → List Char
  | [] => [c]
  | x :: xs => if c ≤ x then c :: x :: xs else x :: insChar c xs

/-- Insertion sort on characters; on duplicate-free input this is the
unique ascending presentation, matching `BTreeMap` key iteration. -/
def sortChars : List Char → List Char
  | [] => []
  | x :: xs => insChar x (sortChars xs)

/-- The keys of the transition graph, in ascending order: the distinct
first characters of the eligible (trimmed) words, as iterated by
`graph.keys()` on the `BTreeMap`. -/
def graphKeys (b : LetterBoxed) (words : List Word) : List Char :=
  sortChars (((eligIdx b words).map fun i => firstCharD (trim (wordAt words i))).dedup)

/-- Lexicographic order on (end letter, word index) pairs: the iteration
order of the nested `BTreeMap`/`BTreeSet` found at one graph key. -/
def lexLe (x y : Char × Nat) : Bool :=
  decide (x.1 < y.1) || (decide (x.1 = y.1) && decide (x.2 ≤ y.2))

/-- Insertion step of the insertion sort used to present graph edges in
`BTreeMap` iteration order. -/
def insLex (x : Char × Nat) : List (Char × Nat) → List (Char × Nat)
  | [] => [x]
  | y :: ys => if lexLe x y then x :: y :: ys else y :: insLex x ys

/-- Insertion sort by `lexLe`; on duplicate-free input this is the unique
sorted presentation, matching `BTreeMap`/`BTreeSet` iteration. -/
def sortLex : List (Char × Nat) → List (Char × Nat)
  | [] => []
  | x :: xs => insLex x (sortLex xs)

/-- The edges leaving `cur` in the transition graph: every eligible word
whose trimmed first character is `cur`, presented as (trimmed last
character, index) in ascending (letter, index) order, exactly as the Rust
loop `for (next_letter, word_indices) in options { for idx in word_indices
{ .. } }` visits them. -/
def edgesFrom (b : LetterBoxed) (words : List Word) (cur : Char) : List (Char × Nat) :=
  sortLex (((eligIdx b words).filter fun i =>
      decide (firstCharD (trim (wordAt words i)) = cur)).map
    fun i => (lastCharD (trim (wordAt words i)), i))

/-- The search state of `solve` (Rust `struct State`): current letter,
visited letters, and the path of word indices taken. -/
structure SolveState where
  cur : Char
  visited : Finset Char
  path : List Nat
deriving DecidableEq

/-- One expansion step of the search: for every edge leaving `s.cur`, keep
it only if the (untrimmed) word contributes a character outside
`s.visited`, extending the visited set and the path as in the Rust body of
the `for idx in word_indices` loop. -/
def stepChildren (b : LetterBoxed) (words : List Word) (s : SolveState) : List SolveState :=
  (edgesFrom b words s.cur).filterMap fun e =>
    if (wordAt words e.2).any (fun c => decide (c ∉ s.visited)) then
      some ⟨e.1, s.visited ∪ (wordAt words e.2).toFinset, s.path ++ [e.2]⟩
    else none

/-- The best-effort record update performed at the top of each loop
iteration: keep the state with the most visited letters, ties broken by
the shorter path.  The record is stored as (visited count, path), mirroring
the Rust tuple `best`. -/
def updBest (s : SolveState) (best : Nat × List Nat) : Nat × List Nat :=
  if best.1 < s.visited.card ∨ (s.visited.card = best.1 ∧ s.path.length < best.2.length)
  then (s.visited.card, s.path) else best

/-- The `while let Some(state) = q.pop_front()` loop of `solve`, driven by
fuel (see `solveLoop_fuel_eq` for fuel-independence).  Returns the emitted
results and the final best-effort record. -/
def solveLoop (b : LetterBoxed) (words : List Word) (maxDepth maxResults : Nat) :
    Nat → List SolveState → List (List Nat × Nat) → Nat × List Nat →
      List (List Nat × Nat) × (Nat × List Nat)
  | 0, _, results, best => (results, best)
  | _ + 1, [], results, best => (results, best)
  | fuel + 1, s :: rest, results, best =>
    if s.visited = b.letters then
      if maxResults ≤ (results ++ [(s.path, b.letters.card)]).length then
        (results ++ [(s.path, b.letters.card)], updBest s best)
      else
        solveLoop b words maxDepth maxResults fuel rest
          (results ++ [(s.path, b.letters.card)]) (updBest s best)
    else if maxDepth < s.path.length + 1 then
      solveLoop b words maxDepth maxResults fuel rest results (updBest s best)
    else
      solveLoop b words maxDepth maxResults fuel (rest ++ stepChildren b words s)
        results (updBest s best)

/-- The visited set seeded from the prior words
(`visited.extend(words[*idx].chars())`, untrimmed words). -/
def priorVisited (words : List Word) (prior : List Nat) : Finset Char :=
  prior.foldl (fun acc i => acc ∪ (wordAt words i).toFinset) ∅

/-- The initial queue of `solve`: with no prior words, one state per graph
key (in ascending key order); otherwise the single state resuming after the
prior words.  `none` models the Rust panics in the prior-words branch: an
out-of-range index in `prior_words_indices`, or `chars().last().unwrap()`
when the last prior word is empty. -/
def initQueue (b : LetterBoxed) (words : List Word) (prior : List Nat) :
    Option (List SolveState) :=
  match prior.getLast? with
  | none => some ((graphKeys b words).map fun k => ⟨k, {k}, []⟩)
  | some lastIdx =>
    if prior.all fun i => decide (i < words.length) then
      match (wordAt words lastIdx).getLast? with
      | some lc => some [⟨lc, priorVisited words prior, prior⟩]
      | none => none
    else none

/-- Fuel bound for `solveLoop`: each queued state can generate at most
`words.length` children per expansion and expansions strictly decrease
`maxDepth + 1 - path.length`, so this geometric sum bounds the number of
loop iterations (proved in `loopFuel_decreases`). -/
def loopFuel (words : List Word) (maxDepth : Nat) (q : List SolveState) : Nat :=
  (q.map fun s => (words.length + 1) ^ (maxDepth + 1 - s.path.length)).sum

/-- The search loop of `solve` run from the initial queue on empty results
and the initial best record `(0, [])`. -/
def loopOut (b : LetterBoxed) (words : List Word) (prior : List Nat)
    (maxDepth maxResults : Nat) :
    Option ((List (List Nat × Nat)) × (Nat × List Nat)) :=
  (initQueue b words prior).map fun q0 =>
    solveLoop b words maxDepth maxResults (loopFuel words maxDepth q0) q0 [] (0, [])

/-- `LetterBoxed::solve` before the final index-to-word mapping: the
emitted results, or the single best-effort result when none were
emitted. -/
def solveRaw (b : LetterBoxed) (words : List Word) (prior : List Nat)
    (maxDepth maxResults : Nat) : Option (List (List Nat × Nat)) :=
  (loopOut b words prior maxDepth maxResults).map fun out =>
    if out.1 = [] then [(out.2.2, out.2.1)] else out.1

/-- `LetterBoxed::solve`: results mapped back from word indices to the
(untrimmed) word texts.  `none` models a panic in the prior-words
handling (see `initQueue`). -/
def solve (b : LetterBoxed) (words : List Word) (prior : List Nat)
    (maxDepth maxResults : Nat) : Option (List (List Word × Nat)) :=
  (solveRaw b words prior maxDepth maxResults).map fun res =>
    res.map fun r => (r.1.map (wordAt words), r.2)

/-- Rust `Iterator::position`: index of the first element equal to `w`. -/
def position (l : List Word) (w : Word) : Option Nat :=
  match l with
  | [] => none
  | x :: rest => if x = w then some 0 else (position rest w).map fun i => i + 1

/-- The prior-word lookup loop of `solve_with_builtin_list`
(`words.iter().position(|ww| ww == w).unwrap()` for each prior word):
`none` models the panic on the first prior word absent from the list. -/
def lookupIndices (builtin : List Word) : List Word → Option (List Nat)
  | [] => some []
  | w :: rest =>
    match position builtin w with
    | none => none
    | some i => (lookupIndices builtin rest).map fun idxs => i :: idxs

/-- Modelled from the spec: the bundled dictionary `words.txt` consumed by
`solve_with_builtin_list` is not part of `src/`, so the loaded built-in
list (`WORDS.lines().map(|w| w.trim())`, per the spec a newline-separated
ordered list of uppercase words) is passed as the parameter `builtin`.
The rest follows `LetterBoxed::solve_with_builtin_list`: look up every
prior word in the list (aborting on a failed lookup) and call `solve`. -/
def solve_with_builtin_list (builtin : List Word) (b : LetterBoxed)
    (priorWords : List Word) (maxDepth maxResults : Nat) :
    Option (List (List Word × Nat)) :=
  match lookupIndices builtin priorWords with
  | none => none
  | some idxs => solve b builtin idxs maxDepth maxResults

/-- The set of characters appearing in a list of words. -/
def unionChars : List Word → Finset Char
  | [] => ∅
  | w :: ws => w.toFinset ∪ unionChars ws

/-- Each word in the list contributes at least one character not present in
the accumulator built from `S` and all earlier words (the property enforced
by the `w.chars().any(|c| !state.visited.contains(&c))` filter). -/
def newCharProgress (S : Finset Char) : List Word → Prop
  | [] => True
  | w :: ws => (∃ c ∈ w, c ∉ S) ∧ newCharProgress (S ∪ w.toFinset) ws

/-- The structural invariant maintained by the search states of `solve`:
the path splits into the prior prefix and a suffix of eligible word
indices; the visited set is exactly the seed set `S` plus the characters
of the suffix words; every suffix word contributed a fresh character when
appended; and `S` is either the singleton start letter (a graph key,
recorded in the first suffix word) or the seeded prior coverage. -/
def richInv (b : LetterBoxed) (words : List Word) (prior : List Nat)
    (s : SolveState) : Prop :=
  ∃ S suffix,
    s.path = prior ++ suffix ∧
    s.visited = S ∪ unionChars (suffix.map (wordAt words)) ∧
    newCharProgress S (suffix.map (wordAt words)) ∧
    (∀ i ∈ suffix, i ∈ eligIdx b words) ∧
    ((∃ k, k ∈ graphKeys b words ∧ S = {k} ∧ prior = [] ∧ (suffix = [] → s.cur = k) ∧
        ∀ j ∈ suffix.head?, firstCharD (trim (wordAt words j)) = k)
     ∨ (prior ≠ [] ∧ S = priorVisited words prior))

/-! ## Basic lemmas about the embedded components -/

theorem mem_insLex {x y : Char × Nat} {l : List (Char × Nat)} :
    y ∈ insLex x l ↔ y = x ∨ y ∈ l := by
  induction l with
  | nil => simp [insLex]
  | cons z zs ih =>
    by_cases h : lexLe x z = true
    · simp only [insLex, if_pos h, List.mem_cons]
    · simp only [insLex, if_neg h, List.mem_cons, ih]
      tauto

theorem mem_sortLex {x : Char × Nat} {l : List (Char × Nat)} :
    x ∈ sortLex l ↔ x ∈ l := by
  induction l with
  | nil => simp [sortLex]
  | cons y ys ih => simp [sortLex, mem_insLex, ih]

theorem length_insLex (x : Char × Nat) (l : List (Char × Nat)) :
    (insLex x l).length = l.length + 1 := by
  induction l with
  | nil => simp [insLex]
  | cons z zs ih =>
    by_cases h : lexLe x z = true
    · simp [insLex, h]
    · simp only [Bool.not_eq_true] at h
      simp [insLex, h, ih]

theorem length_sortLex (l : List (Char × Nat)) : (sortLex l).length = l.length := by
  induction l with
  | nil => rfl
  | cons y ys ih => simp [sortLex, length_insLex, ih]

theorem mem_insChar {c x : Char} {l : List Char} :
    x ∈ insChar c l ↔ x = c ∨ x ∈ l := by
  induction l with
  | nil => simp [insChar]
  | cons y ys ih =>
    by_cases h : c ≤ y
    · simp only [insChar, if_pos h, List.mem_cons]
    · simp only [insChar, if_neg h, List.mem_cons, ih]
      tauto

theorem mem_sortChars {x : Char} {l : List Char} :
    x ∈ sortChars l ↔ x ∈ l := by
  induction l with
  | nil => simp [sortChars]
  | cons y ys ih => simp [sortChars, mem_insChar, ih]

theorem mem_graphKeys {b : LetterBoxed} {words : List Word} {k : Char} :
    k ∈ graphKeys b words ↔
      ∃ i ∈ eligIdx b words, firstCharD (trim (wordAt words i)) = k := by
  rw [graphKeys, mem_sortChars, List.mem_dedup, List.mem_map]

theorem mem_eligIdx {b : LetterBoxed} {words : List Word} {i : Nat} :
    i ∈ eligIdx b words ↔ i < words.length ∧ eligible b (trim (wordAt words i)) = true := by
  simp [eligIdx, List.mem_filter, List.mem_range]

theorem mem_edgesFrom {b : LetterBoxed} {words : List Word} {cur : Char} {e : Char × Nat}
    (h : e ∈ edgesFrom b words cur) :
    e.2 ∈ eligIdx b words ∧ firstCharD (trim (wordAt words e.2)) = cur ∧
      e.1 = lastCharD (trim (wordAt words e.2)) := by
  rw [edgesFrom, mem_sortLex, List.mem_map] at h
  obtain ⟨i, hi, hei⟩ := h
  rw [List.mem_filter] at hi
  subst hei
  simpa using hi

theorem length_edgesFrom_le (b : LetterBoxed) (words : List Word) (cur : Char) :
    (edgesFrom b words cur).length ≤ words.length := by
  rw [edgesFrom, length_sortLex, List.length_map]
  calc (List.filter _ (eligIdx b words)).length
      ≤ (eligIdx b words).length := List.length_filter_le _ _
    _ ≤ (List.range words.length).length := List.length_filter_le _ _
    _ = words.length := List.length_range _

/-- Characterization of a child produced by one expansion step. -/
theorem mem_stepChildren {b : LetterBoxed} {words : List Word} {s c : SolveState}
    (h : c ∈ stepChildren b words s) :
    ∃ e ∈ edgesFrom b words s.cur,
      (wordAt words e.2).any (fun ch => decide (ch ∉ s.visited)) = true ∧
      c = ⟨e.1, s.visited ∪ (wordAt words e.2).toFinset, s.path ++ [e.2]⟩ := by
  rw [stepChildren, List.mem_filterMap] at h
  obtain ⟨e, he, hsome⟩ := h
  refine ⟨e, he, ?_⟩
  by_cases hany : (wordAt words e.2).any (fun ch => decide (ch ∉ s.visited)) = true
  · rw [if_pos hany] at hsome
    exact ⟨hany, (Option.some_inj.mp hsome).symm⟩
  · rw [if_neg hany] at hsome
    cases hsome

theorem length_stepChildren_le (b : LetterBoxed) (words : List Word) (s : SolveState) :
    (stepChildren b words s).length ≤ words.length :=
  le_trans (List.length_filterMap_le _ _) (length_edgesFrom_le b words s.cur)

theorem stepChildren_path_length {b : LetterBoxed} {words : List Word} {s c : SolveState}
    (h : c ∈ stepChildren b words s) : c.path.length = s.path.length + 1 := by
  obtain ⟨e, _, _, hc⟩ := mem_stepChildren h
  subst hc
  simp

/-- A word found at an eligible index is nonempty, its characters lie in
the board's letters, and it has no forbidden pair (all after trimming). -/
theorem eligible_spec {b : LetterBoxed} {w : Word} (h : eligible b w = true) :
    3 ≤ utf8Len w ∧ (∀ c ∈ w, c ∈ b.letters) ∧ pairsOk b w = true := by
  rw [eligible, Bool.and_assoc] at h
  simp only [Bool.and_eq_true, decide_eq_true_eq, List.all_eq_true] at h
  exact ⟨h.1, fun c hc => by simpa using h.2.1 c hc, h.2.2⟩

theorem trim_sublist (w : Word) : (trim w).Sublist w := by
  have h1 : (w.dropWhile rustIsWhitespace).Sublist w := List.dropWhile_sublist _
  have h2 : ((w.dropWhile rustIsWhitespace).reverse.dropWhile rustIsWhitespace).Sublist
      (w.dropWhile rustIsWhitespace).reverse := List.dropWhile_sublist _
  have h3 := h2.reverse
  simp only [List.reverse_reverse] at h3
  exact h3.trans h1

theorem mem_of_mem_trim {w : Word} {c : Char} (h : c ∈ trim w) : c ∈ w :=
  (trim_sublist w).subset h

theorem firstCharD_mem {w : Word} (h : w ≠ []) : firstCharD w ∈ w := by
  cases w with
  | nil => exact absurd rfl h
  | cons a as => simp [firstCharD]

theorem lastCharD_getLast? {w : Word} (h : w ≠ []) : w.getLast? = some (lastCharD w) := by
  cases w with
  | nil => exact absurd rfl h
  | cons a as => simp [lastCharD, List.getLastD_eq_getLast?, List.getLast?_cons]

theorem eligible_trim_ne_nil {b : LetterBoxed} {w : Word}
    (h : eligible b w = true) : w ≠ [] := by
  obtain ⟨h3, -, -⟩ := eligible_spec h
  intro hnil
  subst hnil
  simp [utf8Len] at h3

/-! ## Fuel: the loop measure decreases, so `loopFuel` iterations suffice -/

theorem loopFuel_append (words : List Word) (d : Nat) (q1 q2 : List SolveState) :
    loopFuel words d (q1 ++ q2) = loopFuel words d q1 + loopFuel words d q2 := by
  simp [loopFuel]

theorem loopFuel_cons (words : List Word) (d : Nat) (s : SolveState) (q : List SolveState) :
    loopFuel words d (s :: q) =
      (words.length + 1) ^ (d + 1 - s.path.length) + loopFuel words d q := by
  simp [loopFuel]

theorem loopFuel_cons_pos (words : List Word) (d : Nat) (s : SolveState)
    (q : List SolveState) : 1 ≤ loopFuel words d (s :: q) := by
  rw [loopFuel_cons]
  have : 1 ≤ (words.length + 1) ^ (d + 1 - s.path.length) :=
    Nat.one_le_pow _ _ (Nat.succ_pos _)
  omega

theorem sum_map_le_length_mul {α : Type} (l : List α) (f : α → Nat) (K : Nat)
    (h : ∀ x ∈ l, f x ≤ K) : (l.map f).sum ≤ l.length * K := by
  induction l with
  | nil => simp
  | cons x xs ih =>
    simp only [List.map_cons, List.sum_cons, List.length_cons]
    have h1 := h x (by simp)
    have h2 := ih fun y hy => h y (by simp [hy])
    calc f x + (xs.map f).sum ≤ K + xs.length * K := Nat.add_le_add h1 h2
      _ = (xs.length + 1) * K := by ring

theorem loopFuel_children_le (b : LetterBoxed) (words : List Word) (d : Nat)
    (s : SolveState) :
    loopFuel words d (stepChildren b words s) ≤
      words.length * (words.length + 1) ^ (d + 1 - (s.path.length + 1)) := by
  have hlen := length_stepChildren_le b words s
  have hterm : ∀ c ∈ stepChildren b words s,
      (words.length + 1) ^ (d + 1 - c.path.length) ≤
      (words.length + 1) ^ (d + 1 - (s.path.length + 1)) := by
    intro c hc
    rw [stepChildren_path_length hc]
  calc loopFuel words d (stepChildren b words s)
      ≤ (stepChildren b words s).length *
          (words.length + 1) ^ (d + 1 - (s.path.length + 1)) :=
        sum_map_le_length_mul _ _ _ hterm
    _ ≤ words.length * (words.length + 1) ^ (d + 1 - (s.path.length + 1)) :=
        Nat.mul_le_mul_right _ hlen

theorem loopFuel_expand_lt (b : LetterBoxed) (words : List Word) (d : Nat)
    (s : SolveState) (rest : List SolveState) (h : s.path.length + 1 ≤ d) :
    loopFuel words d (rest ++ stepChildren b words s) < loopFuel words d (s :: rest) := by
  rw [loopFuel_append, loopFuel_cons]
  have hexp : d + 1 - s.path.length = (d + 1 - (s.path.length + 1)) + 1 := by omega
  have hchild := loopFuel_children_le b words d s
  have hpow : 1 ≤ (words.length + 1) ^ (d + 1 - (s.path.length + 1)) :=
    Nat.one_le_pow _ _ (Nat.succ_pos _)
  have hlt : words.length * (words.length + 1) ^ (d + 1 - (s.path.length + 1)) <
      (words.length + 1) ^ (d + 1 - s.path.length) := by
    rw [hexp, pow_succ, Nat.mul_comm words.length]
    exact mul_lt_mul_of_pos_left (Nat.lt_succ_self _) (by positivity)
  omega

theorem loopFuel_tail_lt (words : List Word) (d : Nat) (s : SolveState)
    (rest : List SolveState) :
    loopFuel words d rest < loopFuel words d (s :: rest) := by
  rw [loopFuel_cons]
  have : 1 ≤ (words.length + 1) ^ (d + 1 - s.path.length) :=
    Nat.one_le_pow _ _ (Nat.succ_pos _)
  omega

theorem solveLoop_nil (b : LetterBoxed) (words : List Word) (d m fuel : Nat)
    (results : List (List Nat × Nat)) (best : Nat × List Nat) :
    solveLoop b words d m fuel [] results best = (results, best) := by
  cases fuel <;> rfl

/-- Fuel-independence: any fuel at least the measure `loopFuel` produces
the same output, so `solve`'s use of `loopFuel` computes the exact result
of the Rust `while` loop. -/
theorem solveLoop_congr (b : LetterBoxed) (words : List Word) (d m : Nat) :
    ∀ f1 f2 q results best, loopFuel words d q ≤ f1 → loopFuel words d q ≤ f2 →
      solveLoop b words d m f1 q results best = solveLoop b words d m f2 q results best := by
  intro f1
  induction f1 with
  | zero =>
    intro f2 q results best h1 h2
    have hq : q = [] := by
      cases q with
      | nil => rfl
      | cons s t => exact absurd h1 (by have := loopFuel_cons_pos words d s t; omega)
    subst hq
    rw [solveLoop_nil, solveLoop_nil]
  | succ a ih =>
    intro f2 q results best h1 h2
    cases q with
    | nil => rw [solveLoop_nil, solveLoop_nil]
    | cons s t =>
      have hpos : 1 ≤ loopFuel words d (s :: t) := loopFuel_cons_pos words d s t
      cases f2 with
      | zero => omega
      | succ c =>
        have htail := loopFuel_tail_lt words d s t
        show solveLoop b words d m (a + 1) (s :: t) results best =
          solveLoop b words d m (c + 1) (s :: t) results best
        rw [solveLoop, solveLoop]
        by_cases hfull : s.visited = b.letters
        · rw [if_pos hfull, if_pos hfull]
          by_cases hbreak : m ≤ (results ++ [(s.path, b.letters.card)]).length
          · rw [if_pos hbreak, if_pos hbreak]
          · rw [if_neg hbreak, if_neg hbreak]
            exact ih c t _ _ (by omega) (by omega)
        · rw [if_neg hfull, if_neg hfull]
          by_cases hdepth : d < s.path.length + 1
          · rw [if_pos hdepth, if_pos hdepth]
            exact ih c t _ _ (by omega) (by omega)
          · rw [if_neg hdepth, if_neg hdepth]
            have hlt := loopFuel_expand_lt b words d s t (by omega)
            exact ih c _ _ _ (by omega) (by omega)

/-- `solve`'s loop terminates exactly: running with any larger fuel gives
the same result as with the `loopFuel` used in the definition. -/
theorem solveLoop_fuel_eq (b : LetterBoxed) (words : List Word) (d m fuel : Nat)
    (q : List SolveState) (results : List (List Nat × Nat)) (best : Nat × List Nat)
    (h : loopFuel words d q ≤ fuel) :
    solveLoop b words d m fuel q results best =
      solveLoop b words d m (loopFuel words d q) q results best :=
  solveLoop_congr b words d m fuel (loopFuel words d q) q results best h le_rfl

/-! ## The master loop invariant -/

/-- If `P` is preserved by expansion, every emitted result comes (via `hR`)
from a fully-covering `P`-state and the final best record satisfies any `Q`
implied by `P` (or already holding initially). -/
theorem solveLoop_inv (b : LetterBoxed) (words : List Word) (d m : Nat)
    (P : SolveState → Prop) (Q : Nat × List Nat → Prop) (R : List Nat × Nat → Prop)
    (hstep : ∀ s, P s → s.path.length + 1 ≤ d → ∀ c ∈ stepChildren b words s, P c)
    (hQ : ∀ s, P s → Q (s.visited.card, s.path))
    (hR : ∀ s, P s → s.visited = b.letters → R (s.path, b.letters.card)) :
    ∀ fuel q results best, (∀ s ∈ q, P s) → (∀ r ∈ results, R r) → Q best →
      (∀ r ∈ (solveLoop b words d m fuel q results best).1, R r) ∧
        Q (solveLoop b words d m fuel q results best).2 := by
  intro fuel
  induction fuel with
  | zero =>
    intro q results best hq hres hbest
    simp only [solveLoop]
    exact ⟨hres, hbest⟩
  | succ a ih =>
    intro q results best hq hres hbest
    cases q with
    | nil => rw [solveLoop_nil]; exact ⟨hres, hbest⟩
    | cons s t =>
      have hs := hq s (by simp)
      have ht : ∀ x ∈ t, P x := fun x hx => hq x (by simp [hx])
      have hQ' : Q (updBest s best) := by
        rw [updBest]
        split
        · exact hQ s hs
        · exact hbest
      rw [solveLoop]
      by_cases hfull : s.visited = b.letters
      · rw [if_pos hfull]
        have hRnew : ∀ r ∈ results ++ [(s.path, b.letters.card)], R r := by
          intro r hr
          rcases List.mem_append.mp hr with h | h
          · exact hres r h
          · rw [List.mem_singleton] at h
            subst h
            exact hR s hs hfull
        by_cases hbreak : m ≤ (results ++ [(s.path, b.letters.card)]).length
        · rw [if_pos hbreak]; exact ⟨hRnew, hQ'⟩
        · rw [if_neg hbreak]; exact ih t _ _ ht hRnew hQ'
      · rw [if_neg hfull]
        by_cases hdepth : d < s.path.length + 1
        · rw [if_pos hdepth]; exact ih t _ _ ht hres hQ'
        · rw [if_neg hdepth]
          refine ih _ _ _ ?_ hres hQ'
          intro x hx
          rcases List.mem_append.mp hx with h | h
          · exact ht x h
          · exact hstep s hs (by omega) x h

/-- Variant of `solveLoop_inv` for a run whose first dequeued state has a
nonempty visited set: the initial best record `(0, [])` is overwritten on
the very first iteration, so `Q` need not hold of `(0, [])`. -/
theorem solveLoop_inv_seeded (b : LetterBoxed) (words : List Word) (d m : Nat)
    (P : SolveState → Prop) (Q : Nat × List Nat → Prop) (R : List Nat × Nat → Prop)
    (hstep : ∀ s, P s → s.path.length + 1 ≤ d → ∀ c ∈ stepChildren b words s, P c)
    (hQ : ∀ s, P s → Q (s.visited.card, s.path))
    (hR : ∀ s, P s → s.visited = b.letters → R (s.path, b.letters.card)) :
    ∀ fuel s t results, 1 ≤ s.visited.card →
      P s → (∀ x ∈ t, P x) → (∀ r ∈ results, R r) →
      (∀ r ∈ (solveLoop b words d m (fuel + 1) (s :: t) results (0, [])).1, R r) ∧
        Q (solveLoop b words d m (fuel + 1) (s :: t) results (0, [])).2 := by
  intro fuel s t results hcard hs ht hres
  have hupd : updBest s (0, []) = (s.visited.card, s.path) := by
    rw [updBest, if_pos]
    exact Or.inl hcard
  have hQ' : Q (updBest s (0, [])) := by rw [hupd]; exact hQ s hs
  have hmain := solveLoop_inv b words d m P Q R hstep hQ hR fuel
  rw [solveLoop]
  by_cases hfull : s.visited = b.letters
  · rw [if_pos hfull]
    have hRnew : ∀ r ∈ results ++ [(s.path, b.letters.card)], R r := by
      intro r hr
      rcases List.mem_append.mp hr with h | h
      · exact hres r h
      · rw [List.mem_singleton] at h
        subst h
        exact hR s hs hfull
    by_cases hbreak : m ≤ (results ++ [(s.path, b.letters.card)]).length
    · rw [if_pos hbreak]; exact ⟨hRnew, hQ'⟩
    · rw [if_neg hbreak]; exact hmain t _ _ ht hRnew hQ'
  · rw [if_neg hfull]
    by_cases hdepth : d < s.path.length + 1
    · rw [if_pos hdepth]; exact hmain t _ _ ht hres hQ'
    · rw [if_neg hdepth]
      refine hmain _ _ _ ?_ hres hQ'
      intro x hx
      rcases List.mem_append.mp hx with h | h
      · exact ht x h
      · exact hstep s hs (by omega) x h

/-! ## Unfolding lemmas for `solve` and the initial queue -/

theorem solve_elim {b : LetterBoxed} {words : List Word} {prior : List Nat}
    {d m : Nat} {res : List (List Word × Nat)}
    (h : solve b words prior d m = some res) :
    ∃ rres, solveRaw b words prior d m = some rres ∧
      res = rres.map fun r => (r.1.map (wordAt words), r.2) := by
  rw [solve] at h
  obtain ⟨rres, hr, hmap⟩ := Option.map_eq_some'.mp h
  exact ⟨rres, hr, hmap.symm⟩

theorem solveRaw_elim {b : LetterBoxed} {words : List Word} {prior : List Nat}
    {d m : Nat} {res : List (List Nat × Nat)}
    (h : solveRaw b words prior d m = some res) :
    ∃ q0, initQueue b words prior = some q0 ∧
      res = (if (solveLoop b words d m (loopFuel words d q0) q0 [] (0, [])).1 = []
        then [((solveLoop b words d m (loopFuel words d q0) q0 [] (0, [])).2.2,
               (solveLoop b words d m (loopFuel words d q0) q0 [] (0, [])).2.1)]
        else (solveLoop b words d m (loopFuel words d q0) q0 [] (0, [])).1) := by
  rw [solveRaw, loopOut, Option.map_map] at h
  obtain ⟨q0, hq0, hres⟩ := Option.map_eq_some'.mp h
  exact ⟨q0, hq0, hres.symm⟩

theorem initQueue_nil (b : LetterBoxed) (words : List Word) :
    initQueue b words [] = some ((graphKeys b words).map fun k => ⟨k, {k}, []⟩) := rfl

theorem initQueue_mem_nil {b : LetterBoxed} {words : List Word} {s : SolveState}
    (h : s ∈ (graphKeys b words).map fun k => (⟨k, {k}, []⟩ : SolveState)) :
    ∃ k ∈ graphKeys b words, s = ⟨k, {k}, []⟩ := by
  rw [List.mem_map] at h
  obtain ⟨k, hk, hs⟩ := h
  exact ⟨k, hk, hs.symm⟩

/-- Shape of the initial queue in the prior-words branch: indices are in
range, the current letter is the last character of the (untrimmed) last
prior word, and the queue is that single seeded state. -/
theorem initQueue_prior {b : LetterBoxed} {words : List Word} {prior : List Nat}
    {q0 : List SolveState} (hp : prior ≠ []) (h : initQueue b words prior = some q0) :
    ∃ lastIdx lc, prior.getLast? = some lastIdx ∧ (∀ i ∈ prior, i < words.length) ∧
      (wordAt words lastIdx).getLast? = some lc ∧
      q0 = [⟨lc, priorVisited words prior, prior⟩] := by
  rw [initQueue] at h
  cases hlast : prior.getLast? with
  | none => exact absurd (List.getLast?_eq_none_iff.mp hlast) hp
  | some lastIdx =>
    rw [hlast] at h
    dsimp only at h
    by_cases hrange : prior.all (fun i => decide (i < words.length)) = true
    · rw [if_pos hrange] at h
      cases hlc : (wordAt words lastIdx).getLast? with
      | none => rw [hlc] at h; cases h
      | some lc =>
        rw [hlc] at h
        dsimp only at h
        refine ⟨lastIdx, lc, rfl, ?_, hlc, (Option.some_inj.mp h).symm⟩
        intro i hi
        have := List.all_eq_true.mp hrange i hi
        simpa using this
    · rw [if_neg hrange] at h; cases h

theorem mem_foldl_union {α : Type} [DecidableEq Char] (f : α → Finset Char)
    (l : List α) (acc : Finset Char) (c : Char) :
    c ∈ l.foldl (fun a x => a ∪ f x) acc ↔ c ∈ acc ∨ ∃ x ∈ l, c ∈ f x := by
  induction l generalizing acc with
  | nil => simp
  | cons x xs ih =>
    rw [List.foldl_cons, ih]
    simp only [Finset.mem_union, List.mem_cons]
    constructor
    · rintro (⟨h | h⟩ | ⟨y, hy, hc⟩)
      · exact Or.inl h
      · exact Or.inr ⟨x, Or.inl rfl, h⟩
      · exact Or.inr ⟨y, Or.inr hy, hc⟩
    · rintro (h | ⟨y, (rfl | hy), hc⟩)
      · exact Or.inl (Or.inl h)
      · exact Or.inl (Or.inr hc)
      · exact Or.inr ⟨y, hy, hc⟩

theorem mem_priorVisited {words : List Word} {prior : List Nat} {c : Char} :
    c ∈ priorVisited words prior ↔ ∃ i ∈ prior, c ∈ wordAt words i := by
  rw [priorVisited, mem_foldl_union]
  simp

theorem mem_unionChars {ws : List Word} {c : Char} :
    c ∈ unionChars ws ↔ ∃ w ∈ ws, c ∈ w := by
  induction ws with
  | nil => simp [unionChars]
  | cons w ws ih =>
    rw [unionChars]
    simp only [Finset.mem_union, List.mem_toFinset, ih, List.mem_cons]
    constructor
    · rintro (h | ⟨x, hx, hc⟩)
      · exact ⟨w, Or.inl rfl, h⟩
      · exact ⟨x, Or.inr hx, hc⟩
    · rintro ⟨x, (rfl | hx), hc⟩
      · exact Or.inl hc
      · exact Or.inr ⟨x, hx, hc⟩

theorem priorVisited_eq_unionChars (words : List Word) (prior : List Nat) :
    priorVisited words prior = unionChars (prior.map (wordAt words)) := by
  ext c
  rw [mem_priorVisited, mem_unionChars]
  simp

theorem unionChars_append (ws1 ws2 : List Word) :
    unionChars (ws1 ++ ws2) = unionChars ws1 ∪ unionChars ws2 := by
  ext c
  simp only [mem_unionChars, Finset.mem_union, List.mem_append]
  constructor
  · rintro ⟨w, (h | h), hc⟩
    · exact Or.inl ⟨w, h, hc⟩
    · exact Or.inr ⟨w, h, hc⟩
  · rintro (⟨w, h, hc⟩ | ⟨w, h, hc⟩)
    · exact ⟨w, Or.inl h, hc⟩
    · exact ⟨w, Or.inr h, hc⟩

/-- Generic result characterization for `solveRaw`: every returned result
is either an emitted full-coverage result (`R`) or the best-effort fallback
(`Q`, which must hold of the initial record `(0, [])`). -/
theorem solveRaw_results (b : LetterBoxed) (words : List Word) (prior : List Nat)
    (d m : Nat) (P : SolveState → Prop) (Q : Nat × List Nat → Prop)
    (R : List Nat × Nat → Prop)
    (hstep : ∀ s, P s → s.path.length + 1 ≤ d → ∀ c ∈ stepChildren b words s, P c)
    (hQ : ∀ s, P s → Q (s.visited.card, s.path))
    (hR : ∀ s, P s → s.visited = b.letters → R (s.path, b.letters.card))
    (hQ0 : Q (0, []))
    (hinit : ∀ q0, initQueue b words prior = some q0 → ∀ s ∈ q0, P s)
    {res : List (List Nat × Nat)} (hs : solveRaw b words prior d m = some res) :
    ∀ r ∈ res, R r ∨ ∃ best : Nat × List Nat, Q best ∧ r = (best.2, best.1) := by
  obtain ⟨q0, hq0, hres⟩ := solveRaw_elim hs
  have hmain := solveLoop_inv b words d m P Q R hstep hQ hR (loopFuel words d q0) q0 [] (0, [])
    (hinit q0 hq0) (by simp) hQ0
  intro r hr
  rw [hres] at hr
  by_cases hnil : (solveLoop b words d m (loopFuel words d q0) q0 [] (0, [])).1 = []
  · rw [if_pos hnil, List.mem_singleton] at hr
    subst hr
    exact Or.inr ⟨(solveLoop b words d m (loopFuel words d q0) q0 [] (0, [])).2, hmain.2, rfl⟩
  · rw [if_neg hnil] at hr
    exact Or.inl (hmain.1 r hr)

/-- Like `solveRaw_results` but for a nonempty prior-word list, where the
first dequeued state has a nonempty visited set, so the fallback `Q` need
not hold of `(0, [])`: the best record is overwritten on the first
iteration. -/
theorem solveRaw_results_seeded (b : LetterBoxed) (words : List Word) (prior : List Nat)
    (d m : Nat) (P : SolveState → Prop) (Q : Nat × List Nat → Prop)
    (R : List Nat × Nat → Prop)
    (hstep : ∀ s, P s → s.path.length + 1 ≤ d → ∀ c ∈ stepChildren b words s, P c)
    (hQ : ∀ s, P s → Q (s.visited.card, s.path))
    (hR : ∀ s, P s → s.visited = b.letters → R (s.path, b.letters.card))
    (hp : prior ≠ [])
    (hinit : ∀ q0, initQueue b words prior = some q0 → ∀ s ∈ q0, P s)
    {res : List (List Nat × Nat)} (hs : solveRaw b words prior d m = some res) :
    ∀ r ∈ res, R r ∨ ∃ best : Nat × List Nat, Q best ∧ r = (best.2, best.1) := by
  obtain ⟨q0, hq0, hres⟩ := solveRaw_elim hs
  obtain ⟨lastIdx, lc, hlast, hrange, hlc, hq0eq⟩ := initQueue_prior hp hq0
  have hmem : lc ∈ priorVisited words prior := by
    rw [mem_priorVisited]
    exact ⟨lastIdx, List.mem_of_mem_getLast? hlast, List.mem_of_mem_getLast? hlc⟩
  have hcard : 1 ≤ (priorVisited words prior).card := Finset.card_pos.mpr ⟨lc, hmem⟩
  subst hq0eq
  have hfpos : 1 ≤ loopFuel words d [⟨lc, priorVisited words prior, prior⟩] :=
    loopFuel_cons_pos words d _ _
  obtain ⟨f, hf⟩ : ∃ f, loopFuel words d [⟨lc, priorVisited words prior, prior⟩] = f + 1 :=
    ⟨_, (Nat.succ_pred_eq_of_pos hfpos).symm⟩
  rw [hf] at hres
  have hseed := solveLoop_inv_seeded b words d m P Q R hstep hQ hR f
    ⟨lc, priorVisited words prior, prior⟩ [] [] hcard
    (hinit _ hq0 _ (by simp)) (by simp) (by simp)
  intro r hr
  rw [hres] at hr
  by_cases hnil :
      (solveLoop b words d m (f + 1) [⟨lc, priorVisited words prior, prior⟩] [] (0, [])).1 = []
  · rw [if_pos hnil, List.mem_singleton] at hr
    subst hr
    exact Or.inr
      ⟨(solveLoop b words d m (f + 1) [⟨lc, priorVisited words prior, prior⟩] [] (0, [])).2,
        hseed.2, rfl⟩
  · rw [if_neg hnil] at hr
    exact Or.inl (hseed.1 r hr)

/-! ## C9: side order is irrelevant to `load_board` -/

/-- C9: for every list of side strings and every permutation of that list,
`load_board` produces the same board: the same forbidden-adjacency relation
and the same letter set. -/
theorem load_board_perm_invariant (sides1 sides2 : List Word) (h : sides1.Perm sides2) :
    load_board sides1 = load_board sides2 := by
  have h1 : (sides1.flatMap fun side => side.flatMap fun c => side.map fun cc => (c, cc)).Perm
      (sides2.flatMap fun side => side.flatMap fun c => side.map fun cc => (c, cc)) :=
    List.Perm.flatMap_right _ h
  have h2 : (sides1.flatMap id).Perm (sides2.flatMap id) := List.Perm.flatMap_right _ h
  rw [load_board, load_board, LetterBoxed.mk.injEq]
  constructor
  · ext p
    rw [List.mem_toFinset, List.mem_toFinset]
    exact h1.mem_iff
  · ext c
    rw [List.mem_toFinset, List.mem_toFinset]
    exact h2.mem_iff

theorem load_board_perm_invariant_witness :
    ([['A', 'B'], ['C']] : List Word).Perm [['C'], ['A', 'B']] ∧
      load_board [['A', 'B'], ['C']] = load_board [['C'], ['A', 'B']] :=
  ⟨by decide, load_board_perm_invariant _ _ (by decide)⟩

/-! ## C2: the fallback guarantee -/

/-- C2: whenever `solve` returns (that is, does not panic), the returned
list is nonempty; and when the search loop emitted no full-coverage result,
the returned list is exactly the single best-effort result taken from the
best record (largest visited count seen, ties broken by shorter path, as
maintained by `updBest`). -/
theorem solve_fallback_guarantee (b : LetterBoxed) (words : List Word) (prior : List Nat)
    (d m : Nat) (res : List (List Word × Nat))
    (out : (List (List Nat × Nat)) × (Nat × List Nat))
    (hsolve : solve b words prior d m = some res)
    (hout : loopOut b words prior d m = some out) :
    res ≠ [] ∧ (out.1 = [] → res = [(out.2.2.map (wordAt words), out.2.1)]) := by
  obtain ⟨rres, hraw, hmap⟩ := solve_elim hsolve
  rw [solveRaw, hout, Option.map_some'] at hraw
  have hrr : rres = if out.1 = [] then [(out.2.2, out.2.1)] else out.1 :=
    (Option.some_inj.mp hraw).symm
  subst hmap
  constructor
  · by_cases hnil : out.1 = []
    · rw [hrr, if_pos hnil]
      simp
    · rw [hrr, if_neg hnil]
      simpa using hnil
  · intro hnil
    rw [hrr, if_pos hnil]
    simp

theorem solve_fallback_guarantee_witness :
    solve (load_board [['A'], ['B']]) [] [] 3 5 = some [([], 0)] ∧
    loopOut (load_board [['A'], ['B']]) [] [] 3 5 = some ([], (0, [])) ∧
    (([([], 0)] : List (List Word × Nat)) ≠ [] ∧
      ((([], (0, [])) : (List (List Nat × Nat)) × (Nat × List Nat)).1 = [] →
        ([([], 0)] : List (List Word × Nat)) =
          [((([], (0, [])) : (List (List Nat × Nat)) × (Nat × List Nat)).2.2.map (wordAt []),
            (([], (0, [])) : (List (List Nat × Nat)) × (Nat × List Nat)).2.1)])) :=
  ⟨by decide, by decide,
    solve_fallback_guarantee (load_board [['A'], ['B']]) [] [] 3 5 [([], 0)] ([], (0, []))
      (by decide) (by decide)⟩

/-! ## C3: resumption consistency -/

/-- C3: with a nonempty `prior_words_indices`, every chain returned by
`solve` (the best-effort fallback chain included) begins with exactly the
prior words, in order. -/
theorem solve_resumption_consistency (b : LetterBoxed) (words : List Word)
    (prior : List Nat) (d m : Nat) (res : List (List Word × Nat))
    (hp : prior ≠ [])
    (hsolve : solve b words prior d m = some res) :
    ∀ r ∈ res, (prior.map (wordAt words)) <+: r.1 := by
  obtain ⟨rres, hraw, hmap⟩ := solve_elim hsolve
  have hres := solveRaw_results_seeded b words prior d m
    (fun s => prior <+: s.path)
    (fun best => prior <+: best.2)
    (fun r => prior <+: r.1)
    ?_ ?_ ?_ hp ?_ hraw
  · subst hmap
    intro r hr
    rw [List.mem_map] at hr
    obtain ⟨r0, hr0, hrr⟩ := hr
    subst hrr
    rcases hres r0 hr0 with h | ⟨best, hb, hbe⟩
    · exact h.map (wordAt words)
    · subst hbe
      exact hb.map (wordAt words)
  · intro s hs hd c hc
    obtain ⟨e, he, hany, hceq⟩ := mem_stepChildren hc
    subst hceq
    exact hs.trans (List.prefix_append s.path [e.2])
  · intro s hs
    exact hs
  · intro s hs _
    exact hs
  · intro q0 hq0 s hsmem
    obtain ⟨lastIdx, lc, hlast, hrange, hlc, hq0eq⟩ := initQueue_prior hp hq0
    subst hq0eq
    rw [List.mem_singleton] at hsmem
    subst hsmem
    exact List.prefix_refl _

theorem solve_resumption_consistency_witness :
    ([0] : List Nat) ≠ [] ∧
    solve (load_board [['A'], ['B']]) [['A','B','A'], ['B','A','B']] [0] 3 5 =
      some [([['A','B','A']], 2)] ∧
    ([0].map (wordAt [['A','B','A'], ['B','A','B']])) <+: [['A','B','A']] :=
  ⟨by decide, by decide,
    solve_resumption_consistency (load_board [['A'], ['B']]) [['A','B','A'], ['B','A','B']]
      [0] 3 5 [([['A','B','A']], 2)] (by decide) (by decide) ([['A','B','A']], 2) (by decide)⟩

/-! ## C6: the depth bound (corrected: the prior words are never trimmed) -/

/-- C6 (amended): every chain returned by `solve` has at most
`max maxDepth prior.length` words.  The bound `maxDepth` alone fails when
more than `maxDepth` prior words are supplied, because the seeded state
carries the full prefix regardless of `max_depth`
(`solve_depth_bound_counterexample`). -/
theorem solve_depth_bound (b : LetterBoxed) (words : List Word) (prior : List Nat)
    (d m : Nat) (res : List (List Word × Nat))
    (hsolve : solve b words prior d m = some res) :
    ∀ r ∈ res, r.1.length ≤ max d prior.length := by
  obtain ⟨rres, hraw, hmap⟩ := solve_elim hsolve
  have hres := solveRaw_results b words prior d m
    (fun s => s.path.length ≤ max d prior.length)
    (fun best => best.2.length ≤ max d prior.length)
    (fun r => r.1.length ≤ max d prior.length)
    ?_ ?_ ?_ ?_ ?_ hraw
  · subst hmap
    intro r hr
    rw [List.mem_map] at hr
    obtain ⟨r0, hr0, hrr⟩ := hr
    subst hrr
    rcases hres r0 hr0 with h | ⟨best, hb, hbe⟩
    · simpa using h
    · subst hbe
      simpa using hb
  · intro s hs hd c hc
    rw [stepChildren_path_length hc]
    omega
  · intro s hs
    exact hs
  · intro s hs _
    exact hs
  · simp
  · intro q0 hq0 s hsmem
    by_cases hp : prior = []
    · subst hp
      rw [initQueue_nil, Option.some_inj] at hq0
      subst hq0
      obtain ⟨k, hk, hs⟩ := initQueue_mem_nil hsmem
      subst hs
      simp
    · obtain ⟨lastIdx, lc, hlast, hrange, hlc, hq0eq⟩ := initQueue_prior hp hq0
      subst hq0eq
      rw [List.mem_singleton] at hsmem
      subst hsmem
      simp

theorem solve_depth_bound_counterexample :
    solve (load_board [['A'], ['B']]) [['A','B','A']] [0] 0 5 =
      some [([['A','B','A']], 2)] ∧
    ¬ (([([['A','B','A']], 2)] : List (List Word × Nat)).all fun r =>
        decide (r.1.length ≤ 0)) = true := by decide

theorem solve_depth_bound_witness :
    solve (load_board [['A'], ['B']]) [['A','B','A']] [0] 0 5 =
      some [([['A','B','A']], 2)] ∧
    ([['A','B','A']] : List Word).length ≤ max 0 ([0] : List Nat).length :=
  ⟨by decide,
    solve_depth_bound (load_board [['A'], ['B']]) [['A','B','A']] [0] 0 5
      [([['A','B','A']], 2)] (by decide) ([['A','B','A']], 2) (by decide)⟩

/-! ## C5: the `max_results` bound (corrected: one result can slip past 0) -/

/-- The loop emits at most `max maxResults 1` results: the emission check
`results.len() >= max_results` runs only after a push, so with
`max_results = 0` a single result is still emitted. -/
theorem solveLoop_count (b : LetterBoxed) (words : List Word) (d m : Nat) :
    ∀ fuel q results best, (results.length < m ∨ results.length = 0) →
      (solveLoop b words d m fuel q results best).1.length ≤ max m 1 := by
  intro fuel
  induction fuel with
  | zero =>
    intro q results best hinv
    simp only [solveLoop]
    omega
  | succ a ih =>
    intro q results best hinv
    cases q with
    | nil =>
      rw [solveLoop_nil]
      simp only
      omega
    | cons s t =>
      rw [solveLoop]
      by_cases hfull : s.visited = b.letters
      · rw [if_pos hfull]
        by_cases hbreak : m ≤ (results ++ [(s.path, b.letters.card)]).length
        · rw [if_pos hbreak]
          simp only [List.length_append, List.length_singleton]
          simp only [List.length_append, List.length_singleton] at hbreak
          omega
        · rw [if_neg hbreak]
          refine ih t _ _ ?_
          simp only [List.length_append, List.length_singleton] at hbreak ⊢
          omega
      · rw [if_neg hfull]
        by_cases hdepth : d < s.path.length + 1
        · rw [if_pos hdepth]
          exact ih t _ _ hinv
        · rw [if_neg hdepth]
          exact ih _ _ _ hinv

/-- C5 (amended): the number of full-coverage results returned by `solve`
never exceeds `max maxResults 1`.  The bound `maxResults` itself fails at
`maxResults = 0`, where one full-coverage result is still emitted before
the early-termination check fires
(`solve_max_results_counterexample`). -/
theorem solve_max_results_bound (b : LetterBoxed) (words : List Word) (prior : List Nat)
    (d m : Nat) (res : List (List Word × Nat))
    (hsolve : solve b words prior d m = some res) :
    (res.countP fun r => decide (r.2 = b.letters.card)) ≤ max m 1 := by
  obtain ⟨rres, hraw, hmap⟩ := solve_elim hsolve
  obtain ⟨q0, hq0, hres⟩ := solveRaw_elim hraw
  have hcount : rres.length ≤ max m 1 := by
    rw [hres]
    by_cases hnil : (solveLoop b words d m (loopFuel words d q0) q0 [] (0, [])).1 = []
    · rw [if_pos hnil]
      simp only [List.length_singleton]
      omega
    · rw [if_neg hnil]
      exact solveLoop_count b words d m (loopFuel words d q0) q0 [] (0, []) (Or.inr rfl)
  calc (res.countP fun r => decide (r.2 = b.letters.card))
      ≤ res.length := List.countP_le_length _
    _ = rres.length := by rw [hmap, List.length_map]
    _ ≤ max m 1 := hcount

theorem solve_max_results_counterexample :
    solve (load_board [['A'], ['B']]) [['A','B','A']] [] 3 0 =
      some [([['A','B','A']], 2)] ∧
    ¬ ((([([['A','B','A']], 2)] : List (List Word × Nat)).countP fun r =>
        decide (r.2 = (load_board [['A'], ['B']]).letters.card)) ≤ 0) := by decide

theorem solve_max_results_bound_witness :
    solve (load_board [['A'], ['B']]) [['A','B','A']] [] 3 0 =
      some [([['A','B','A']], 2)] ∧
    (([([['A','B','A']], 2)] : List (List Word × Nat)).countP fun r =>
      decide (r.2 = (load_board [['A'], ['B']]).letters.card)) ≤ max 0 1 :=
  ⟨by decide,
    solve_max_results_bound (load_board [['A'], ['B']]) [['A','B','A']] [] 3 0
      [([['A','B','A']], 2)] (by decide)⟩

/-! ## C4: monotonic minimality via breadth-first discovery order -/

/-- The queue invariant of breadth-first search: path lengths in the queue
are non-decreasing, the queue spans at most two consecutive levels, results
were emitted in non-decreasing length order, and every emitted result is no
longer than any queued path.  Under these invariants the final result list
is sorted by chain length. -/
theorem solveLoop_sorted (b : LetterBoxed) (words : List Word) (d m : Nat) :
    ∀ fuel q results best,
      q.Pairwise (fun s1 s2 => s1.path.length ≤ s2.path.length) →
      (∀ s t, q = s :: t → ∀ x ∈ t, x.path.length ≤ s.path.length + 1) →
      results.Pairwise (fun r1 r2 => r1.1.length ≤ r2.1.length) →
      (∀ r ∈ results, ∀ x ∈ q, r.1.length ≤ x.path.length) →
      (solveLoop b words d m fuel q results best).1.Pairwise
        (fun r1 r2 => r1.1.length ≤ r2.1.length) := by
  intro fuel
  induction fuel with
  | zero =>
    intro q results best _ _ hres _
    simpa only [solveLoop] using hres
  | succ a ih =>
    intro q results best hq hbnd hres hcross
    cases q with
    | nil => rw [solveLoop_nil]; exact hres
    | cons s t =>
      have hst : ∀ x ∈ t, s.path.length ≤ x.path.length :=
        fun x hx => (List.pairwise_cons.mp hq).1 x hx
      have hqt : t.Pairwise (fun s1 s2 => s1.path.length ≤ s2.path.length) :=
        (List.pairwise_cons.mp hq).2
      have hbt : ∀ x ∈ t, x.path.length ≤ s.path.length + 1 := hbnd s t rfl
      have hbnd_t : ∀ u t', t = u :: t' → ∀ x ∈ t', x.path.length ≤ u.path.length + 1 := by
        intro u t' ht' x hx
        subst ht'
        have h1 : x.path.length ≤ s.path.length + 1 := hbt x (by simp [hx])
        have h2 : s.path.length ≤ u.path.length := hst u (by simp)
        omega
      have hchild_len : ∀ c ∈ stepChildren b words s, c.path.length = s.path.length + 1 :=
        fun c hc => stepChildren_path_length hc
      rw [solveLoop]
      by_cases hfull : s.visited = b.letters
      · rw [if_pos hfull]
        have hres' : (results ++ [(s.path, b.letters.card)]).Pairwise
            (fun r1 r2 => r1.1.length ≤ r2.1.length) := by
          rw [List.pairwise_append]
          refine ⟨hres, List.pairwise_singleton _ _, ?_⟩
          intro r hr r2 hr2
          rw [List.mem_singleton] at hr2
          subst hr2
          exact hcross r hr s (by simp)
        by_cases hbreak : m ≤ (results ++ [(s.path, b.letters.card)]).length
        · rw [if_pos hbreak]
          exact hres'
        · rw [if_neg hbreak]
          refine ih t _ _ hqt hbnd_t hres' ?_
          intro r hr x hx
          rcases List.mem_append.mp hr with h | h
          · exact hcross r h x (by simp [hx])
          · rw [List.mem_singleton] at h
            subst h
            exact hst x hx
      · rw [if_neg hfull]
        by_cases hdepth : d < s.path.length + 1
        · rw [if_pos hdepth]
          refine ih t _ _ hqt hbnd_t hres ?_
          intro r hr x hx
          exact hcross r hr x (by simp [hx])
        · rw [if_neg hdepth]
          refine ih (t ++ stepChildren b words s) _ _ ?_ ?_ hres ?_
          · rw [List.pairwise_append]
            refine ⟨hqt, ?_, ?_⟩
            · rw [List.pairwise_iff_getElem]
              intro i1 j1 hi1 hj1 hij1
              rw [hchild_len _ (List.getElem_mem hi1), hchild_len _ (List.getElem_mem hj1)]
            · intro x hx c hc
              rw [hchild_len c hc]
              have := hbt x hx
              omega
          · intro u t' heq x hx
            cases t with
            | nil =>
              simp only [List.nil_append] at heq
              have hu : u ∈ stepChildren b words s := by rw [heq]; simp
              have hxc : x ∈ stepChildren b words s := by rw [heq]; simp [hx]
              rw [hchild_len x hxc, hchild_len u hu]
              omega
            | cons v t0 =>
              rw [List.cons_append, List.cons.injEq] at heq
              obtain ⟨hv, ht'⟩ := heq
              subst hv
              subst ht'
              have h2 : s.path.length ≤ v.path.length := hst v (by simp)
              rcases List.mem_append.mp hx with h | h
              · have := hbt x (by simp [h])
                omega
              · rw [hchild_len x h]
                omega
          · intro r hr x hx
            rcases List.mem_append.mp hx with h | h
            · exact hcross r hr x (by simp [h])
            · rw [hchild_len x h]
              have := hcross r hr s (by simp)
              omega

/-- C4: among the results returned by `solve`, chain lengths appear in
non-decreasing output order (stated, as in the claim, for any two
full-coverage results; the proof shows it for all returned results). -/
theorem solve_monotonic_minimality (b : LetterBoxed) (words : List Word)
    (prior : List Nat) (d m : Nat) (res : List (List Word × Nat))
    (hsolve : solve b words prior d m = some res)
    (i j : Nat) (hi : i < res.length) (hj : j < res.length) (hij : i ≤ j)
    (hfi : (res.get ⟨i, hi⟩).2 = b.letters.card)
    (hfj : (res.get ⟨j, hj⟩).2 = b.letters.card) :
    (res.get ⟨i, hi⟩).1.length ≤ (res.get ⟨j, hj⟩).1.length := by
  have hpw : res.Pairwise (fun r1 r2 => r1.1.length ≤ r2.1.length) := by
    obtain ⟨rres, hraw, hmap⟩ := solve_elim hsolve
    obtain ⟨q0, hq0, hres⟩ := solveRaw_elim hraw
    have hrr : rres.Pairwise (fun r1 r2 => r1.1.length ≤ r2.1.length) := by
      rw [hres]
      by_cases hnil : (solveLoop b words d m (loopFuel words d q0) q0 [] (0, [])).1 = []
      · rw [if_pos hnil]
        exact List.pairwise_singleton _ _
      · rw [if_neg hnil]
        have hq0len : ∀ s ∈ q0, s.path.length = 0 ∨ q0 = [s] := by
          by_cases hp : prior = []
          · subst hp
            rw [initQueue_nil, Option.some_inj] at hq0
            intro s hs
            rw [← hq0] at hs
            obtain ⟨k, hk, hseq⟩ := initQueue_mem_nil hs
            subst hseq
            exact Or.inl rfl
          · obtain ⟨lastIdx, lc, hlast, hrange, hlc, hq0eq⟩ := initQueue_prior hp hq0
            subst hq0eq
            intro s hs
            rw [List.mem_singleton] at hs
            subst hs
            exact Or.inr rfl
        refine solveLoop_sorted b words d m _ q0 [] (0, []) ?_ ?_ (by simp) (by simp)
        · rw [List.pairwise_iff_getElem]
          intro i1 j1 hi1 hj1 hij1
          rcases hq0len _ (List.getElem_mem hi1) with h1 | h1
          · rw [h1]
            omega
          · have : q0.length = 1 := by rw [h1]; rfl
            omega
        · intro s t heq x hx
          rcases hq0len x (by rw [heq]; simp [hx]) with h1 | h1
          · omega
          · have h2 : (s :: t).length = 1 := by rw [← heq, h1]; rfl
            simp only [List.length_cons] at h2
            have : t = [] := List.length_eq_zero.mp (by omega)
            subst this
            simp at hx
    subst hmap
    refine List.Pairwise.map _ ?_ hrr
    intro r1 r2 h12
    simpa using h12
  rcases Nat.lt_or_ge i j with hlt | hge
  · have := List.pairwise_iff_getElem.mp hpw i j hi hj hlt
    simpa [List.get_eq_getElem] using this
  · have heq : i = j := le_antisymm hij hge
    subst heq
    exact le_rfl

theorem solve_monotonic_minimality_witness :
    solve (load_board [['A'], ['B']]) [['A','B','A'], ['B','A','B']] [] 3 5 =
      some [([['A','B','A']], 2), ([['B','A','B']], 2)] ∧
    (([([['A','B','A']], 2), ([['B','A','B']], 2)] : List (List Word × Nat)).get
        ⟨0, by decide⟩).1.length ≤
      (([([['A','B','A']], 2), ([['B','A','B']], 2)] : List (List Word × Nat)).get
        ⟨1, by decide⟩).1.length :=
  ⟨by decide,
    solve_monotonic_minimality (load_board [['A'], ['B']]) [['A','B','A'], ['B','A','B']]
      [] 3 5 [([['A','B','A']], 2), ([['B','A','B']], 2)] (by decide)
      0 1 (by decide) (by decide) (by decide) (by decide) (by decide)⟩

/-! ## C1: validator soundness (corrected: untrimmed or ill-chained prior
words can defeat the validator) -/

theorem firstCharD_head? {w : Word} (h : w ≠ []) : w.head? = some (firstCharD w) := by
  cases w with
  | nil => exact absurd rfl h
  | cons a as => rfl

theorem wordAt_mem {words : List Word} {i : Nat} (h : i < words.length) :
    wordAt words i ∈ words := by
  rw [wordAt, List.getD_eq_getElem words [] h]
  exact List.getElem_mem h

theorem chainOk_snoc (ws : List Word) (w : Word) :
    chainOk (ws ++ [w]) = true ↔
      chainOk ws = true ∧ ∀ lw ∈ ws.getLast?, lw.getLast? = w.head? := by
  induction ws with
  | nil =>
    constructor
    · intro _
      refine ⟨rfl, ?_⟩
      intro lw hlw
      simp at hlw
    · intro _
      rfl
  | cons a tail ih =>
    cases tail with
    | nil =>
      show chainOk [a, w] = true ↔ _
      rw [chainOk, Bool.and_eq_true]
      simp only [chainOk, and_true, beq_iff_eq, List.getLast?_singleton, Option.mem_def,
        Option.some_inj]
      constructor
      · intro h
        exact ⟨trivial, fun lw hlw => hlw ▸ h⟩
      · intro h
        exact h.2 a rfl
    | cons bb tail2 =>
      have h1 : (a :: bb :: tail2) ++ [w] = a :: bb :: (tail2 ++ [w]) := by simp
      rw [h1, chainOk, Bool.and_eq_true,
        show bb :: (tail2 ++ [w]) = (bb :: tail2) ++ [w] from by simp, ih, chainOk,
        List.getLast?_cons_cons, Bool.and_eq_true]
      tauto

theorem validate_snoc (b : LetterBoxed) (ws : List Word) (w : Word) :
    validate b (ws ++ [w]) = true ↔
      validate b ws = true ∧ pairsOk b w = true ∧
        ∀ lw ∈ ws.getLast?, lw.getLast? = w.head? := by
  rw [validate, validate, Bool.and_eq_true, Bool.and_eq_true, chainOk_snoc, List.all_append]
  simp only [List.all_cons, List.all_nil, Bool.and_true, Bool.and_eq_true]
  tauto

/-- C1 (amended): on a board built by `load_board`, if every word of the
list is its own trimmed form and the prior words themselves form a valid
chain, then every chain returned by `solve` (the best-effort fallback chain
included) passes `validate`.  Unrestricted, the claim fails: the search
chains on trimmed first/last characters but `validate` sees the raw words,
and the prior words are never checked
(`solve_validator_soundness_counterexample`). -/
theorem solve_validator_soundness (sides : List Word) (words : List Word)
    (prior : List Nat) (d m : Nat) (res : List (List Word × Nat))
    (htrim : ∀ w ∈ words, trim w = w)
    (hpv : validate (load_board sides) (prior.map (wordAt words)) = true)
    (hsolve : solve (load_board sides) words prior d m = some res) :
    ∀ r ∈ res, validate (load_board sides) r.1 = true := by
  set b := load_board sides with hb
  obtain ⟨rres, hraw, hmap⟩ := solve_elim hsolve
  have hres := solveRaw_results b words prior d m
    (fun s => validate b ((s.path).map (wordAt words)) = true ∧
      ∀ li ∈ s.path.getLast?, (wordAt words li).getLast? = some s.cur)
    (fun best => validate b (best.2.map (wordAt words)) = true)
    (fun r => validate b (r.1.map (wordAt words)) = true)
    ?_ ?_ ?_ ?_ ?_ hraw
  · subst hmap
    intro r hr
    rw [List.mem_map] at hr
    obtain ⟨r0, hr0, hrr⟩ := hr
    subst hrr
    rcases hres r0 hr0 with h | ⟨best, hbq, hbe⟩
    · exact h
    · subst hbe
      exact hbq
  · rintro s ⟨hv, hlast⟩ hd c hc
    obtain ⟨e, he, hany, hceq⟩ := mem_stepChildren hc
    obtain ⟨hel, hfc, hlc⟩ := mem_edgesFrom he
    obtain ⟨hilt, helig⟩ := mem_eligIdx.mp hel
    have hmemw : wordAt words e.2 ∈ words := wordAt_mem hilt
    have htw : trim (wordAt words e.2) = wordAt words e.2 := htrim _ hmemw
    rw [htw] at hfc hlc helig
    obtain ⟨h3, hsub, hpok⟩ := eligible_spec helig
    have hw_ne : wordAt words e.2 ≠ [] := by
      intro hnil
      rw [hnil] at h3
      simp [utf8Len] at h3
    subst hceq
    constructor
    · show validate b ((s.path ++ [e.2]).map (wordAt words)) = true
      rw [List.map_append, List.map_singleton, validate_snoc]
      refine ⟨hv, hpok, ?_⟩
      intro lw hlw
      rw [List.getLast?_map] at hlw
      rw [Option.mem_def, Option.map_eq_some'] at hlw
      obtain ⟨li, hli, hlweq⟩ := hlw
      subst hlweq
      rw [hlast li (by rw [Option.mem_def]; exact hli), firstCharD_head? hw_ne, hfc]
    · intro li hli
      rw [Option.mem_def, List.getLast?_concat, Option.some_inj] at hli
      subst hli
      rw [hlc]
      exact lastCharD_getLast? hw_ne
  · rintro s ⟨hv, _⟩
    exact hv
  · rintro s ⟨hv, _⟩ _
    exact hv
  · show validate b (([] : List Nat).map (wordAt words)) = true
    rfl
  · intro q0 hq0 s hsmem
    by_cases hp : prior = []
    · subst hp
      rw [initQueue_nil, Option.some_inj] at hq0
      subst hq0
      obtain ⟨k, hk, hseq⟩ := initQueue_mem_nil hsmem
      subst hseq
      exact ⟨rfl, by intro li hli; simp at hli⟩
    · obtain ⟨lastIdx, lc, hlast, hrange, hlc, hq0eq⟩ := initQueue_prior hp hq0
      subst hq0eq
      rw [List.mem_singleton] at hsmem
      subst hsmem
      refine ⟨hpv, ?_⟩
      intro li hli
      rw [Option.mem_def, hlast, Option.some_inj] at hli
      subst hli
      exact hlc

theorem solve_validator_soundness_counterexample :
    solve (load_board [['A'], ['B']]) [['A','B','A'], ['B','A','B']] [0, 1] 5 5 =
      some [([['A','B','A'], ['B','A','B']], 2)] ∧
    (([([['A','B','A'], ['B','A','B']], 2)] : List (List Word × Nat)).all fun r =>
      validate (load_board [['A'], ['B']]) r.1) = false := by decide

theorem solve_validator_soundness_witness :
    trim ['A','B','A'] = ['A','B','A'] ∧
    validate (load_board [['A'], ['B']]) (([] : List Nat).map (wordAt [['A','B','A']])) = true ∧
    solve (load_board [['A'], ['B']]) [['A','B','A']] [] 3 5 = some [([['A','B','A']], 2)] ∧
    validate (load_board [['A'], ['B']]) [['A','B','A']] = true :=
  ⟨by decide, by decide, by decide,
    solve_validator_soundness [['A'], ['B']] [['A','B','A']] [] 3 5 [([['A','B','A']], 2)]
      (by decide) (by decide) (by decide) ([['A','B','A']], 2) (by decide)⟩

/-! ## C7/C10: the fresh-letter invariant -/

theorem newCharProgress_forall {S : Finset Char} {ws : List Word}
    (h : newCharProgress S ws) : ∀ w ∈ ws, ∃ c ∈ w, c ∉ S := by
  induction ws generalizing S with
  | nil =>
    intro w hw
    simp at hw
  | cons x xs ih =>
    rw [newCharProgress] at h
    intro w hw
    rcases List.mem_cons.mp hw with rfl | hw
    · exact h.1
    · obtain ⟨c, hc, hcn⟩ := ih h.2 w hw
      exact ⟨c, hc, fun hcS => hcn (Finset.mem_union_left _ hcS)⟩

theorem newCharProgress_nodup {S : Finset Char} {ws : List Word}
    (h : newCharProgress S ws) : ws.Nodup := by
  induction ws generalizing S with
  | nil => exact List.nodup_nil
  | cons x xs ih =>
    rw [newCharProgress] at h
    refine List.nodup_cons.mpr ⟨?_, ih h.2⟩
    intro hmem
    obtain ⟨c, hc, hcn⟩ := newCharProgress_forall h.2 x hmem
    exact hcn (Finset.mem_union_right _ (List.mem_toFinset.mpr hc))

theorem newCharProgress_length {S L : Finset Char} {ws : List Word}
    (h : newCharProgress S ws) (hsub : ∀ w ∈ ws, ∀ c ∈ w, c ∈ L) :
    ws.length ≤ (L \ S).card := by
  induction ws generalizing S with
  | nil => simp
  | cons x xs ih =>
    rw [newCharProgress] at h
    obtain ⟨⟨c, hc, hcn⟩, hrest⟩ := h
    have hcL : c ∈ L := hsub x (by simp) c hc
    have hcd : c ∈ L \ S := Finset.mem_sdiff.mpr ⟨hcL, hcn⟩
    have h1 : xs.length ≤ (L \ (S ∪ x.toFinset)).card :=
      ih hrest fun w hw => hsub w (by simp [hw])
    have h2 : L \ (S ∪ x.toFinset) ⊆ (L \ S).erase c := by
      intro y hy
      rw [Finset.mem_sdiff, Finset.mem_union] at hy
      push_neg at hy
      rw [Finset.mem_erase, Finset.mem_sdiff]
      refine ⟨?_, hy.1, hy.2.1⟩
      intro heq
      subst heq
      exact hy.2.2 (List.mem_toFinset.mpr hc)
    have h3 := Finset.card_le_card h2
    rw [Finset.card_erase_of_mem hcd] at h3
    have hpos : 1 ≤ (L \ S).card := Finset.card_pos.mpr ⟨c, hcd⟩
    simp only [List.length_cons]
    omega

theorem newCharProgress_snoc (S : Finset Char) (ws : List Word) (w : Word) :
    newCharProgress S (ws ++ [w]) ↔
      newCharProgress S ws ∧ ∃ c ∈ w, c ∉ S ∪ unionChars ws := by
  induction ws generalizing S with
  | nil =>
    rw [List.nil_append, newCharProgress, newCharProgress, newCharProgress]
    simp [unionChars]
  | cons x xs ih =>
    rw [List.cons_append, newCharProgress, newCharProgress, ih, unionChars,
      Finset.union_assoc]
    tauto

/-- Expansion preserves the rich invariant. -/
theorem richInv_step (b : LetterBoxed) (words : List Word) (prior : List Nat)
    (s : SolveState) (hs : richInv b words prior s) :
    ∀ c ∈ stepChildren b words s, richInv b words prior c := by
  obtain ⟨S, suffix, hpath, hvis, hprog, helig, hseed⟩ := hs
  intro c hc
  obtain ⟨e, he, hany, hceq⟩ := mem_stepChildren hc
  obtain ⟨helIdx, hfc, hlcE⟩ := mem_edgesFrom he
  obtain ⟨hilt, heligw⟩ := mem_eligIdx.mp helIdx
  have htw_ne : trim (wordAt words e.2) ≠ [] := eligible_trim_ne_nil heligw
  subst hceq
  refine ⟨S, suffix ++ [e.2], ?_, ?_, ?_, ?_, ?_⟩
  · show s.path ++ [e.2] = prior ++ (suffix ++ [e.2])
    rw [hpath, List.append_assoc]
  · show s.visited ∪ (wordAt words e.2).toFinset = _
    rw [List.map_append, List.map_singleton, unionChars_append, hvis,
      show unionChars [wordAt words e.2] = (wordAt words e.2).toFinset from by
        simp [unionChars],
      Finset.union_assoc]
  · rw [List.map_append, List.map_singleton, newCharProgress_snoc]
    refine ⟨hprog, ?_⟩
    obtain ⟨ch, hch, hchn⟩ := List.any_eq_true.mp hany
    rw [decide_eq_true_eq] at hchn
    rw [hvis] at hchn
    exact ⟨ch, hch, hchn⟩
  · intro i hi
    rcases List.mem_append.mp hi with h | h
    · exact helig i h
    · rw [List.mem_singleton] at h
      subst h
      exact helIdx
  · rcases hseed with ⟨k, hk, hSk, hpnil, hcur, hhead⟩ | hpr
    · refine Or.inl ⟨k, hk, hSk, hpnil, ?_, ?_⟩
      · intro habs
        exact absurd habs (by simp)
      · cases suffix with
        | nil =>
          intro j hj
          simp only [List.nil_append, List.head?_cons, Option.mem_def,
            Option.some_inj] at hj
          subst hj
          rw [hfc]
          exact hcur rfl
        | cons j0 js =>
          intro j hj
          simp only [List.cons_append, List.head?_cons, Option.mem_def,
            Option.some_inj] at hj
          subst hj
          exact hhead j0 (by simp)
    · exact Or.inr hpr

/-- The initial queue satisfies the rich invariant. -/
theorem richInv_init (b : LetterBoxed) (words : List Word) (prior : List Nat) :
    ∀ q0, initQueue b words prior = some q0 → ∀ s ∈ q0, richInv b words prior s := by
  intro q0 hq0 s hsmem
  by_cases hp : prior = []
  · subst hp
    rw [initQueue_nil, Option.some_inj] at hq0
    subst hq0
    obtain ⟨k, hk, hseq⟩ := initQueue_mem_nil hsmem
    subst hseq
    refine ⟨{k}, [], by simp, by simp [unionChars], trivial, by simp, ?_⟩
    exact Or.inl ⟨k, hk, rfl, rfl, fun _ => rfl, by intro j hj; simp at hj⟩
  · obtain ⟨lastIdx, lc, hlast, hrange, hlc, hq0eq⟩ := initQueue_prior hp hq0
    subst hq0eq
    rw [List.mem_singleton] at hsmem
    subst hsmem
    refine ⟨priorVisited words prior, [], by simp, by simp [unionChars], trivial, by simp, ?_⟩
    exact Or.inr ⟨hp, rfl⟩

/-- Every result of `solveRaw` is the path of a rich-invariant state,
either emitted with full coverage or recorded as the best-effort fallback
(which, with no prior words, can also be the empty chain). -/
theorem solveRaw_rich (b : LetterBoxed) (words : List Word) (prior : List Nat)
    (d m : Nat) {rres : List (List Nat × Nat)}
    (hraw : solveRaw b words prior d m = some rres) :
    ∀ r ∈ rres,
      (∃ s, richInv b words prior s ∧
        ((s.visited = b.letters ∧ r = (s.path, b.letters.card)) ∨
          r = (s.path, s.visited.card))) ∨
      (prior = [] ∧ r = ([], 0)) := by
  by_cases hp : prior = []
  · have hres := solveRaw_results b words prior d m
      (richInv b words prior)
      (fun best => best = (0, []) ∨
        ∃ s, richInv b words prior s ∧ best = (s.visited.card, s.path))
      (fun r => ∃ s, richInv b words prior s ∧ s.visited = b.letters ∧
        r = (s.path, b.letters.card))
      (fun s hs _ => richInv_step b words prior s hs)
      (fun s hs => Or.inr ⟨s, hs, rfl⟩)
      (fun s hs hfull => ⟨s, hs, hfull, rfl⟩)
      (Or.inl rfl)
      (richInv_init b words prior) hraw
    intro r hr
    rcases hres r hr with ⟨s, hs, hfull, hre⟩ | ⟨best, hbq, hbe⟩
    · exact Or.inl ⟨s, hs, Or.inl ⟨hfull, hre⟩⟩
    · rcases hbq with h0 | ⟨s, hs, hbeq⟩
      · subst h0
        exact Or.inr ⟨hp, by rw [hbe]⟩
      · subst hbeq
        exact Or.inl ⟨s, hs, Or.inr (by rw [hbe])⟩
  · have hres := solveRaw_results_seeded b words prior d m
      (richInv b words prior)
      (fun best => ∃ s, richInv b words prior s ∧ best = (s.visited.card, s.path))
      (fun r => ∃ s, richInv b words prior s ∧ s.visited = b.letters ∧
        r = (s.path, b.letters.card))
      (fun s hs _ => richInv_step b words prior s hs)
      (fun s hs => ⟨s, hs, rfl⟩)
      (fun s hs hfull => ⟨s, hs, hfull, rfl⟩)
      hp
      (richInv_init b words prior) hraw
    intro r hr
    rcases hres r hr with ⟨s, hs, hfull, hre⟩ | ⟨best, ⟨s, hs, hbeq⟩, hbe⟩
    · exact Or.inl ⟨s, hs, Or.inl ⟨hfull, hre⟩⟩
    · subst hbeq
      exact Or.inl ⟨s, hs, Or.inr (by rw [hbe])⟩

/-- C10 (amended): provided every word of the list equals its trimmed
form, every chain returned by `solve` decomposes after the prior prefix
into a suffix in which every word contributes a character fresh over the
seed and all earlier words, where the seed is the prior words' character
set when prior words are given and the singleton first character of the
first suffix word otherwise; hence no word index repeats in the suffix and
the suffix has at most as many words as the board has distinct letters.
Without the trimming proviso the length bound fails: whitespace-padded
words add whitespace to the visited set
(`solve_fresh_letter_invariant_counterexample`). -/
theorem solve_fresh_letter_invariant (b : LetterBoxed) (words : List Word)
    (prior : List Nat) (d m : Nat) (rres : List (List Nat × Nat))
    (htrim : ∀ w ∈ words, trim w = w)
    (hraw : solveRaw b words prior d m = some rres) :
    solve b words prior d m =
      some (rres.map fun r => (r.1.map (wordAt words), r.2)) ∧
    ∀ r ∈ rres, ∃ suffix S,
      r.1 = prior ++ suffix ∧
      newCharProgress S (suffix.map (wordAt words)) ∧
      (prior ≠ [] → S = priorVisited words prior) ∧
      (prior = [] → ∀ j ∈ suffix.head?, S = {firstCharD (wordAt words j)}) ∧
      suffix.Nodup ∧
      suffix.length ≤ b.letters.card := by
  constructor
  · rw [solve, hraw, Option.map_some']
  · intro r hr
    rcases solveRaw_rich b words prior d m hraw r hr with
      ⟨s, ⟨S, suffix, hpath, hvis, hprog, helig, hseed⟩, hcase⟩ | ⟨hp, hre⟩
    · have hr1 : r.1 = s.path := by
        rcases hcase with ⟨_, hre⟩ | hre <;> rw [hre]
      refine ⟨suffix, S, by rw [hr1, hpath], hprog, ?_, ?_, ?_, ?_⟩
      · intro hp
        rcases hseed with ⟨k, _, _, hpnil, _, _⟩ | ⟨_, hS⟩
        · exact absurd hpnil hp
        · exact hS
      · intro hp j hj
        rcases hseed with ⟨k, hk, hSk, hpnil, hcur, hhead⟩ | ⟨hpne, _⟩
        · obtain ⟨hjlt, hjeligw⟩ := mem_eligIdx.mp
            (helig j (List.mem_of_mem_head? hj))
          have htwj : trim (wordAt words j) = wordAt words j :=
            htrim _ (wordAt_mem hjlt)
          rw [hSk, ← hhead j hj, htwj]
        · exact absurd hp hpne
      · exact (newCharProgress_nodup hprog).of_map
      · have hsub : ∀ w ∈ suffix.map (wordAt words), ∀ c ∈ w, c ∈ b.letters := by
          intro w hw c hc
          rw [List.mem_map] at hw
          obtain ⟨i, hi, hweq⟩ := hw
          subst hweq
          obtain ⟨hilt, heligw⟩ := mem_eligIdx.mp (helig i hi)
          have htwi : trim (wordAt words i) = wordAt words i := htrim _ (wordAt_mem hilt)
          rw [htwi] at heligw
          obtain ⟨-, hchars, -⟩ := eligible_spec heligw
          exact hchars c hc
        calc suffix.length = (suffix.map (wordAt words)).length :=
              (List.length_map _ _).symm
          _ ≤ (b.letters \ S).card := newCharProgress_length hprog hsub
          _ ≤ b.letters.card := Finset.card_le_card Finset.sdiff_subset
    · refine ⟨[], ∅, by rw [hre, hp]; rfl, trivial, ?_, ?_, List.nodup_nil, by simp⟩
      · intro hpn
        exact absurd hp hpn
      · intro _ j hj
        simp at hj

theorem solve_fresh_letter_invariant_counterexample :
    solveRaw (load_board [['A'], ['B'], ['Z']])
      [[' ','A','B','A'], ['\t','A','B','A'], ['\n','A','B','A'], ['\r','A','B','A']]
      [] 4 5 = some [([0, 1, 2, 3], 6)] ∧
    (load_board [['A'], ['B'], ['Z']]).letters.card = 3 ∧
    ¬ (([0, 1, 2, 3] : List Nat).length ≤ (load_board [['A'], ['B'], ['Z']]).letters.card) := by
  decide

theorem solve_fresh_letter_invariant_witness :
    trim ['A','B','A'] = ['A','B','A'] ∧
    solveRaw (load_board [['A'], ['B']]) [['A','B','A']] [] 3 5 = some [([0], 2)] ∧
    (∃ suffix S, ([0] : List Nat) = [] ++ suffix ∧
      newCharProgress S (suffix.map (wordAt [['A','B','A']])) ∧
      (([] : List Nat) ≠ [] → S = priorVisited [['A','B','A']] []) ∧
      (([] : List Nat) = [] → ∀ j ∈ suffix.head?,
        S = {firstCharD (wordAt [['A','B','A']] j)}) ∧
      suffix.Nodup ∧
      suffix.length ≤ (load_board [['A'], ['B']]).letters.card) :=
  ⟨by decide, by decide,
    (solve_fresh_letter_invariant (load_board [['A'], ['B']]) [['A','B','A']] [] 3 5
      [([0], 2)] (by decide) (by decide)).2 ([0], 2) (by decide)⟩

/-- Any letter of a board built by `load_board` forms a forbidden pair with
itself, since `load_board` inserts every same-side pair including the
diagonal. -/
theorem load_board_self_pair {sides : List Word} {c : Char}
    (h : c ∈ (load_board sides).letters) :
    (c, c) ∈ (load_board sides).nonadjacent := by
  simp only [load_board] at h ⊢
  rw [List.mem_toFinset, List.mem_flatMap] at h
  obtain ⟨side, hside, hcs⟩ := h
  rw [List.mem_toFinset, List.mem_flatMap]
  refine ⟨side, hside, ?_⟩
  rw [List.mem_flatMap]
  refine ⟨c, by simpa using hcs, ?_⟩
  rw [List.mem_map]
  exact ⟨c, by simpa using hcs, rfl⟩

theorem pairsOk_head {b : LetterBoxed} {c1 c2 : Char} {rest : Word}
    (h : pairsOk b (c1 :: c2 :: rest) = true) : (c1, c2) ∉ b.nonadjacent := by
  rw [pairsOk, Bool.and_eq_true] at h
  simpa using h.1

/-- C7 (amended): on a board built by `load_board`, provided every word of
the list equals its trimmed form, every character of every prior word is a
board letter, and the result's chain is nonempty, a `coverage_count` equal
to the number of distinct board letters forces the chain's character set
to be exactly the board's letter set.  Each proviso is forced by the code:
whitespace-padded words and off-board prior letters let the visited count
reach `|letters|` without the chain covering the board, and a word of
fewer than three characters but at least three UTF-8 bytes lets `solve`
emit an empty chain whose `coverage_count` equals `|letters|`
(`solve_coverage_correctness_counterexample`). -/
theorem solve_coverage_correctness (sides : List Word) (words : List Word)
    (prior : List Nat) (d m : Nat) (res : List (List Word × Nat))
    (htrim : ∀ w ∈ words, trim w = w)
    (hpc : ∀ i ∈ prior, ∀ c ∈ wordAt words i, c ∈ (load_board sides).letters)
    (hsolve : solve (load_board sides) words prior d m = some res) :
    ∀ r ∈ res, r.1 ≠ [] → r.2 = (load_board sides).letters.card →
      unionChars r.1 = (load_board sides).letters := by
  set b := load_board sides with hb
  obtain ⟨rres, hraw, hmap⟩ := solve_elim hsolve
  subst hmap
  intro r hr hne hcov
  rw [List.mem_map] at hr
  obtain ⟨r0, hr0, hrr⟩ := hr
  subst hrr
  simp only at hcov hne
  have hne0 : r0.1 ≠ [] := by
    intro h0
    rw [h0] at hne
    exact hne rfl
  rcases solveRaw_rich b words prior d m hraw r0 hr0 with
    ⟨s, ⟨S, suffix, hpath, hvis, hprog, helig, hseed⟩, hcase⟩ | ⟨hp, hre⟩
  · have hUCsub : unionChars (suffix.map (wordAt words)) ⊆ b.letters := by
      intro c hc
      rw [mem_unionChars] at hc
      obtain ⟨w, hw, hcw⟩ := hc
      rw [List.mem_map] at hw
      obtain ⟨i, hi, hweq⟩ := hw
      subst hweq
      obtain ⟨hilt, heligw⟩ := mem_eligIdx.mp (helig i hi)
      have htwi : trim (wordAt words i) = wordAt words i := htrim _ (wordAt_mem hilt)
      rw [htwi] at heligw
      obtain ⟨-, hchars, -⟩ := eligible_spec heligw
      exact hchars c hcw
    have hSsub : S ⊆ b.letters := by
      rcases hseed with ⟨k, hk, hSk, -, -, -⟩ | ⟨-, hSpv⟩
      · subst hSk
        rw [Finset.singleton_subset_iff]
        obtain ⟨i, hi, hfk⟩ := mem_graphKeys.mp hk
        obtain ⟨hilt, heligw⟩ := mem_eligIdx.mp hi
        obtain ⟨-, hchars, -⟩ := eligible_spec heligw
        rw [← hfk]
        exact hchars _ (firstCharD_mem (eligible_trim_ne_nil heligw))
      · subst hSpv
        intro c hc
        rw [mem_priorVisited] at hc
        obtain ⟨i, hi, hcw⟩ := hc
        exact hpc i hi c hcw
    have hvisub : s.visited ⊆ b.letters := by
      rw [hvis]
      exact Finset.union_subset hSsub hUCsub
    have hviseq : s.visited = b.letters := by
      rcases hcase with ⟨hfull, -⟩ | hre
      · exact hfull
      · have hcard : s.visited.card = b.letters.card := by
          rw [hre] at hcov
          exact hcov
        exact Finset.eq_of_subset_of_card_le hvisub (le_of_eq hcard.symm)
    have hr01 : r0.1 = s.path := by
      rcases hcase with ⟨-, hre⟩ | hre <;> rw [hre]
    rw [hr01, hpath, List.map_append, unionChars_append]
    rcases hseed with ⟨k, hk, hSk, hpnil, hcur, hhead⟩ | ⟨hp, hSpv⟩
    · subst hpnil
      rw [show unionChars (([] : List Nat).map (wordAt words)) = ∅ from rfl,
        Finset.empty_union]
      cases suffix with
      | nil =>
        exact absurd (by rw [hr01, hpath] : r0.1 = ([] : List Nat) ++ []) hne0
      | cons j js =>
        have hkuc : k ∈ unionChars ((j :: js).map (wordAt words)) := by
          rw [mem_unionChars]
          obtain ⟨hjlt, hjeligw⟩ := mem_eligIdx.mp (helig j (by simp))
          have hkj : k ∈ wordAt words j := by
            refine mem_of_mem_trim ?_
            rw [← hhead j (by simp)]
            exact firstCharD_mem (eligible_trim_ne_nil hjeligw)
          exact ⟨wordAt words j, by simp, hkj⟩
        have habs : S ∪ unionChars ((j :: js).map (wordAt words)) =
            unionChars ((j :: js).map (wordAt words)) := by
          rw [hSk]
          rw [Finset.union_eq_right]
          rwa [Finset.singleton_subset_iff]
        rw [← habs, ← hvis]
        exact hviseq
    · have hpuc : unionChars (prior.map (wordAt words)) = S := by
        rw [hSpv, priorVisited_eq_unionChars]
      rw [hpuc, ← hvis]
      exact hviseq
  · exact absurd (by rw [hre] : r0.1 = []) hne0

theorem solve_coverage_correctness_counterexample :
    (solve (load_board [['A'], ['B'], ['C']]) [[' ','A','B','A']] [] 3 5 =
        some [([[' ','A','B','A']], 3)] ∧
      (load_board [['A'], ['B'], ['C']]).letters.card = 3 ∧
      unionChars [[' ','A','B','A']] ≠ (load_board [['A'], ['B'], ['C']]).letters) ∧
    (solve (load_board [['√']]) [['√']] [] 3 5 = some [([], 1)] ∧
      (load_board [['√']]).letters.card = 1 ∧
      unionChars ([] : List Word) ≠ (load_board [['√']]).letters) := by
  decide

theorem solve_coverage_correctness_witness :
    trim ['A','B','A'] = ['A','B','A'] ∧
    solve (load_board [['A'], ['B']]) [['A','B','A']] [] 3 5 =
      some [([['A','B','A']], 2)] ∧
    unionChars [['A','B','A']] = (load_board [['A'], ['B']]).letters :=
  ⟨by decide, by decide,
    solve_coverage_correctness [['A'], ['B']] [['A','B','A']] [] 3 5
      [([['A','B','A']], 2)] (by decide) (by decide) (by decide)
      ([['A','B','A']], 2) (by decide) (by decide) (by decide)⟩

/-! ## C8: the prior-word lookup of `solve_with_builtin_list` -/

theorem position_eq_none_iff {l : List Word} {w : Word} :
    position l w = none ↔ w ∉ l := by
  induction l with
  | nil => simp [position]
  | cons x rest ih =>
    rw [position]
    by_cases hx : x = w
    · subst hx
      simp
    · rw [if_neg hx]
      simp only [Option.map_eq_none', ih, List.mem_cons]
      constructor
      · intro h hmem
        rcases hmem with h1 | h1
        · exact hx h1.symm
        · exact h h1
      · intro h hmem
        exact h (Or.inr hmem)

theorem position_spec {l : List Word} {w : Word} {i : Nat}
    (h : position l w = some i) : i < l.length ∧ wordAt l i = w := by
  induction l generalizing i with
  | nil => cases h
  | cons x rest ih =>
    rw [position] at h
    by_cases hx : x = w
    · rw [if_pos hx] at h
      have h0 : (0 : Nat) = i := Option.some_inj.mp h
      subst h0
      exact ⟨by simp, by simpa [wordAt] using hx⟩
    · rw [if_neg hx, Option.map_eq_some'] at h
      obtain ⟨j, hj, hji⟩ := h
      subst hji
      obtain ⟨hjl, hjw⟩ := ih hj
      refine ⟨by simpa using hjl, ?_⟩
      simpa [wordAt] using hjw

theorem lookupIndices_none_iff {builtin prior : List Word} :
    lookupIndices builtin prior = none ↔ ∃ w ∈ prior, w ∉ builtin := by
  induction prior with
  | nil => simp [lookupIndices]
  | cons w rest ih =>
    rw [lookupIndices]
    cases hpos : position builtin w with
    | none =>
      exact iff_of_true rfl ⟨w, by simp, position_eq_none_iff.mp hpos⟩
    | some i =>
      rw [Option.map_eq_none', ih]
      constructor
      · rintro ⟨w', hw', hnot⟩
        exact ⟨w', by simp [hw'], hnot⟩
      · rintro ⟨w', hw', hnot⟩
        rcases List.mem_cons.mp hw' with h | h
        · subst h
          rw [position_eq_none_iff.mpr hnot] at hpos
          cases hpos
        · exact ⟨w', h, hnot⟩

theorem lookupIndices_mem {builtin prior : List Word} {idxs : List Nat}
    (h : lookupIndices builtin prior = some idxs) :
    ∀ i ∈ idxs, ∃ w ∈ prior, position builtin w = some i := by
  induction prior generalizing idxs with
  | nil =>
    rw [lookupIndices, Option.some_inj] at h
    subst h
    intro i hi
    simp at hi
  | cons w rest ih =>
    rw [lookupIndices] at h
    cases hpos : position builtin w with
    | none => rw [hpos] at h; cases h
    | some j =>
      rw [hpos, Option.map_eq_some'] at h
      obtain ⟨restIdx, hrest, hcons⟩ := h
      subst hcons
      intro i hi
      rcases List.mem_cons.mp hi with h1 | h1
      · subst h1
        exact ⟨w, by simp, hpos⟩
      · obtain ⟨w', hw', hpos'⟩ := ih hrest i h1
        exact ⟨w', by simp [hw'], hpos'⟩

theorem lookupIndices_last {builtin prior : List Word} {idxs : List Nat}
    (h : lookupIndices builtin prior = some idxs) (hp : prior ≠ []) :
    ∃ w li, prior.getLast? = some w ∧ idxs.getLast? = some li ∧
      position builtin w = some li := by
  induction prior generalizing idxs with
  | nil => exact absurd rfl hp
  | cons w rest ih =>
    rw [lookupIndices] at h
    cases hpos : position builtin w with
    | none => rw [hpos] at h; cases h
    | some j =>
      rw [hpos, Option.map_eq_some'] at h
      obtain ⟨restIdx, hrest, hcons⟩ := h
      subst hcons
      cases rest with
      | nil =>
        rw [lookupIndices, Option.some_inj] at hrest
        subst hrest
        exact ⟨w, j, rfl, rfl, hpos⟩
      | cons w2 rest2 =>
        obtain ⟨w', li, hl1, hl2, hpos'⟩ := ih hrest (by simp)
        refine ⟨w', li, ?_, ?_, hpos'⟩
        · rw [List.getLast?_cons_cons]
          exact hl1
        · cases restIdx with
          | nil => simp at hl2
          | cons i0 is => rw [List.getLast?_cons_cons]; exact hl2

/-- C8: assuming (per the spec of the bundled list) that the built-in word
list contains no empty word, `solve_with_builtin_list` aborts if and only
if some prior word does not exactly match an entry of the list; when every
prior word matches, the call returns normally. -/
theorem solve_with_builtin_list_abort_iff (builtin : List Word) (b : LetterBoxed)
    (priorWords : List Word) (d m : Nat)
    (hnb : ([] : Word) ∉ builtin) :
    solve_with_builtin_list builtin b priorWords d m = none ↔
      ∃ w ∈ priorWords, w ∉ builtin := by
  rw [solve_with_builtin_list]
  cases hlk : lookupIndices builtin priorWords with
  | none => exact iff_of_true rfl (lookupIndices_none_iff.mp hlk)
  | some idxs =>
    have hrhs : ¬ ∃ w ∈ priorWords, w ∉ builtin := by
      intro hex
      rw [← lookupIndices_none_iff, hlk] at hex
      cases hex
    refine iff_of_false ?_ hrhs
    have hinit : ∃ q0, initQueue b builtin idxs = some q0 := by
      cases hpi : idxs.getLast? with
      | none => exact ⟨_, by rw [initQueue, hpi]⟩
      | some li =>
        have hp : priorWords ≠ [] := by
          intro hnil
          subst hnil
          rw [lookupIndices, Option.some_inj] at hlk
          subst hlk
          simp at hpi
        obtain ⟨w, li2, hl1, hl2, hposw⟩ := lookupIndices_last hlk hp
        rw [hpi, Option.some_inj] at hl2
        subst hl2
        obtain ⟨hlt, hwat⟩ := position_spec hposw
        have hrange : (idxs.all fun i => decide (i < builtin.length)) = true := by
          rw [List.all_eq_true]
          intro i hi
          obtain ⟨w', hw', hpos'⟩ := lookupIndices_mem hlk i hi
          simpa using (position_spec hpos').1
        have hwne : wordAt builtin li ≠ [] := by
          intro hnil
          have hmem : wordAt builtin li ∈ builtin := wordAt_mem hlt
          rw [hnil] at hmem
          exact hnb hmem
        rw [initQueue, hpi]
        dsimp only
        rw [if_pos hrange]
        cases hgl : (wordAt builtin li).getLast? with
        | none => exact absurd (List.getLast?_eq_none_iff.mp hgl) hwne
        | some lc => exact ⟨_, rfl⟩
    obtain ⟨q0, hq0⟩ := hinit
    dsimp only
    rw [solve, solveRaw, loopOut, hq0]
    simp

theorem solve_with_builtin_list_abort_iff_witness :
    ([] : Word) ∉ ([['A','B','A']] : List Word) ∧
    (solve_with_builtin_list [['A','B','A']] (load_board [['A'], ['B']]) [['X']] 3 5 = none ↔
      ∃ w ∈ ([['X']] : List Word), w ∉ ([['A','B','A']] : List Word)) :=
  ⟨by decide,
    solve_with_builtin_list_abort_iff [['A','B','A']] (load_board [['A'], ['B']])
      [['X']] 3 5 (by decide)⟩
